import Mathlib

/-!
# Verification of the `@princjef/api-documenter` core algorithms

A shallow embedding of the core of `src/documenters/markdownDocumenter.ts`,
`src/markdown/markdownEmitter.ts` and `src/markdown/customMarkdownEmitter.ts`:
the hierarchy resolver, the member resolver, the page router and the markdown
emitter, together with theorems checking the natural-language specification
against this embedding.

Conventions of the embedding:
* JavaScript strings are Lean `String`s; `String.prototype.toLowerCase` and the
  comparison used by `localeCompare` are modelled by character-wise functions
  declared below (the inputs of interest are ASCII identifiers).
* JavaScript object identity (`===` on objects, `Map` keys) is modelled by a
  numeric `id` carried by every declaration; distinct objects carry distinct
  ids.
* `Map` objects are modelled as association lists with JavaScript `Map`
  semantics: `set` overwrites in place or appends, iteration follows insertion
  order.
* `while` loops whose termination is part of what is being checked are
  translated with an explicit fuel parameter; `none` means the loop has not
  finished within the given fuel, so a result of `none` for *every* fuel is a
  non-terminating execution of the source loop.
-/

namespace ApiDocumenter

/-! ## Basic string helpers -/

/-- Lower-casing of a single character, ASCII range (models
`String.prototype.toLowerCase` on the identifier characters that occur in
display names). -/
def lowerChar (c : Char) : Char :=
  if 'A' ≤ c ∧ c ≤ 'Z' then Char.ofNat (c.toNat + 32) else c

/-- Character-wise lower-casing of a string. -/
def lowerStr (s : String) : String :=
  ⟨s.data.map lowerChar⟩

/-- Lexicographic strict comparison of character lists; the model of the total
order underlying `String.prototype.localeCompare` (negative result). -/
def charListLt : List Char → List Char → Bool
  | [], [] => false
  | [], _ :: _ => true
  | _ :: _, [] => false
  | a :: as, b :: bs => if a < b then true else if b < a then false else charListLt as bs

/-- Strict string comparison (`a.localeCompare(b) < 0`). -/
def strLt (a b : String) : Bool := charListLt a.data b.data

/-- Non-strict string comparison (`a.localeCompare(b) <= 0`). -/
def strLe (a b : String) : Bool := !(strLt b a)

theorem charListLt_irrefl : ∀ l : List Char, charListLt l l = false := by
  intro l
  induction l with
  | nil => rfl
  | cons a as ih => simp [charListLt, ih]

theorem charListLt_asymm :
    ∀ {a b : List Char}, charListLt a b = true → charListLt b a = false := by
  intro a
  induction a with
  | nil => intro b _; cases b <;> rfl
  | cons x xs ih =>
    intro b h
    cases b with
    | nil => simp [charListLt] at h
    | cons y ys =>
      simp only [charListLt] at h ⊢
      by_cases hxy : x < y
      · have hyx : ¬ y < x := asymm hxy
        simp [hxy, hyx]
      · by_cases hyx : y < x
        · simp [hxy, hyx] at h
        · simp only [hxy, hyx, if_false] at h ⊢
          exact ih h

theorem charListLt_eq_of_not_lt :
    ∀ {a b : List Char}, charListLt a b = false → charListLt b a = false → a = b := by
  intro a
  induction a with
  | nil => intro b h _; cases b with
    | nil => rfl
    | cons y ys => simp [charListLt] at h
  | cons x xs ih =>
    intro b h h'
    cases b with
    | nil => simp [charListLt] at h'
    | cons y ys =>
      simp only [charListLt] at h h'
      by_cases hxy : x < y
      · simp [hxy] at h
      · by_cases hyx : y < x
        · simp [hyx, hxy] at h'
        · have hx : x = y := le_antisymm (not_lt.mp hyx) (not_lt.mp hxy)
          simp only [hxy, hyx, if_false] at h h'
          rw [hx, ih h h']

theorem charListLt_trans :
    ∀ {a b c : List Char}, charListLt a b = true → charListLt b c = true →
      charListLt a c = true := by
  intro a
  induction a with
  | nil =>
    intro b c hab hbc
    cases b with
    | nil => simp [charListLt] at hab
    | cons y ys =>
      cases c with
      | nil => simp [charListLt] at hbc
      | cons z zs => rfl
  | cons x xs ih =>
    intro b c hab hbc
    cases b with
    | nil => simp [charListLt] at hab
    | cons y ys =>
      cases c with
      | nil => simp [charListLt] at hbc
      | cons z zs =>
        simp only [charListLt] at hab hbc ⊢
        by_cases hxy : x < y
        · by_cases hyz : y < z
          · simp [lt_trans hxy hyz]
          · by_cases hzy : z < y
            · simp [hyz, hzy] at hbc
            · have : y = z := le_antisymm (not_lt.mp hzy) (not_lt.mp hyz)
              subst this
              simp [hxy]
        · by_cases hyx : y < x
          · simp [hxy, hyx] at hab
          · have hxey : x = y := le_antisymm (not_lt.mp hyx) (not_lt.mp hxy)
            subst hxey
            simp only [hxy, if_false, if_neg hxy] at hab
            by_cases hxz : x < z
            · simp [hxz]
            · by_cases hzx : z < x
              · simp [hxz, hzx] at hbc
              · simp only [hxz, hzx, if_false] at hbc ⊢
                exact ih hab hbc

theorem strLe_trans {a b c : String} (h₁ : strLe a b = true) (h₂ : strLe b c = true) :
    strLe a c = true := by
  simp only [strLe, strLt, Bool.not_eq_true'] at h₁ h₂ ⊢
  by_contra hcon
  rw [Bool.not_eq_false] at hcon
  by_cases hbc : charListLt b.data c.data = true
  · exact absurd (charListLt_trans hbc hcon) (by simp [h₁])
  · rw [Bool.not_eq_true] at hbc
    have hbceq : b.data = c.data := charListLt_eq_of_not_lt hbc h₂
    rw [← hbceq] at hcon
    simp [hcon] at h₁

theorem strLe_total (a b : String) : (strLe a b || strLe b a) = true := by
  simp only [strLe, strLt, Bool.not_eq_true']
  by_cases h : charListLt b.data a.data = true
  · simp [charListLt_asymm h]
  · simp [Bool.not_eq_true] at h
    simp [h]

theorem strLt_or_eq_of_not_lt {a b : String} (h : strLt b a = false) :
    strLt a b = true ∨ a = b := by
  by_cases h' : strLt a b = true
  · exact Or.inl h'
  · refine Or.inr ?_
    rw [Bool.not_eq_true] at h'
    have hd := charListLt_eq_of_not_lt h' h
    cases a; cases b
    exact congrArg String.mk hd

/-- Count the occurrences of a character in a string. -/
def countChar (s : String) (c : Char) : Nat :=
  s.data.count c

/-! ## API item kinds and declarations -/

/-- The kinds of `ApiItem` (from `@microsoft/api-extractor-model`) that the
documenter dispatches on. -/
inductive ApiItemKind where
  | Model
  | EntryPoint
  | Package
  | Namespace
  | Class
  | Interface
  | Enum
  | EnumMember
  | Method
  | MethodSignature
  | Property
  | PropertySignature
  | Function
  | Variable
  | TypeAlias
deriving DecidableEq, Repr

/-- A declaration of the input forest (an `ApiItem`): identity (`id` models
JavaScript object identity), kind, display name, containment children, and the
raw type-reference excerpt texts of its `extends`/`implements` clauses
(`classExtendsText` is `ApiClass.extendsType`, `implementsTexts` is
`ApiClass.implementsTypes`, `ifaceExtendsTexts` is
`ApiInterface.extendsTypes`). -/
inductive Decl where
  | mk
      (id : Nat)
      (kind : ApiItemKind)
      (displayName : String)
      (members : List Decl)
      (classExtendsText : Option String)
      (implementsTexts : List String)
      (ifaceExtendsTexts : List String)

def Decl.id : Decl → Nat
  | .mk i _ _ _ _ _ _ => i

def Decl.kind : Decl → ApiItemKind
  | .mk _ k _ _ _ _ _ => k

def Decl.displayName : Decl → String
  | .mk _ _ n _ _ _ _ => n

def Decl.members : Decl → List Decl
  | .mk _ _ _ m _ _ _ => m

def Decl.classExtendsText : Decl → Option String
  | .mk _ _ _ _ e _ _ => e

def Decl.implementsTexts : Decl → List String
  | .mk _ _ _ _ _ i _ => i

def Decl.ifaceExtendsTexts : Decl → List String
  | .mk _ _ _ _ _ _ e => e

/-! ## C1: the inheritance annotation (`_createInheritanceNote`) -/

/-- `_createInheritanceNote` (markdownDocumenter.ts lines 649-694), reduced to
its decidable content: the label text and the linked parent (the paragraph
wrapping is layout only).  `apiItem === parent` is object identity, modelled
by `id` equality.  Returns `none` for an empty inheritance chain. -/
def createInheritanceNote (apiItem : Decl) (inheritanceChain : List Decl) :
    Option (String × Decl) :=
  match inheritanceChain with
  | [] => none
  | parent :: _ =>
    let text :=
      if apiItem.id = parent.id then
        "Inherited from "
      else if (apiItem.kind = .Method ∨ parent.kind = .Property) ∧
              (apiItem.kind = .MethodSignature ∨ parent.kind = .PropertySignature) then
        "Implements "
      else
        "Overrides "
    some (text, parent)

/-- A concrete class method `Dog.speak` (an implementation). -/
def dogSpeak : Decl := .mk 1 .Method "speak" [] none [] []

/-- A concrete interface method signature `Animal.speak`. -/
def animalSpeak : Decl := .mk 2 .MethodSignature "speak" [] none [] []

/-- A concrete class property (an implementation). -/
def dogColor : Decl := .mk 3 .Property "color" [] none [] []

/-- A concrete interface property signature. -/
def animalColor : Decl := .mk 4 .PropertySignature "color" [] none [] []

/-- C1: the spec says a concrete `Method` whose nearest chain entry is a
`MethodSignature` (and a concrete `Property` whose nearest chain entry is a
`PropertySignature`) is annotated `Implements`; the code's boolean condition
`(item.kind === Method || parent.kind === Property) && (item.kind ===
MethodSignature || parent.kind === PropertySignature)` is never satisfied in
either of those situations, so both get `Overrides`, contradicting the code's
own comment ("If the item is an implementation and the parent is not, then
it's an implementation of the parent"). -/
theorem c1_inheritance_note_code_bug :
    createInheritanceNote dogSpeak [animalSpeak] = some ("Overrides ", animalSpeak) ∧
    createInheritanceNote dogColor [animalColor] = some ("Overrides ", animalColor) :=
  ⟨rfl, rfl⟩

/-! ## The Page Router: `_getFilenameForApiItem`, `_getAnchorForApiItem`,
`_getLinkFilenameForApiItem` (C5, C6)

The router works on `apiItem.getHierarchy()`, the chain of ancestors of an
item (outermost first, the item itself last).  A hierarchy row is modelled by
the fields the router reads: kind, display name, and the mixin data
(`overloadIndex`, `isStatic`, `isEventProperty`). -/

/-- One row of `ApiItem.getHierarchy()` as seen by the page router. -/
structure HierItem where
  kind : ApiItemKind
  displayName : String
  overloadIndex : Nat
  isStatic : Bool
  isEventProperty : Bool
deriving DecidableEq, Repr

/-- The per-kind folder (first switch of `_getFilenameForApiItem`,
lines 2110-2131). -/
def folderForKind : ApiItemKind → Option String
  | .Class => some "classes"
  | .Enum => some "enums"
  | .Interface => some "interfaces"
  | .Namespace => some "namespaces"
  | .TypeAlias => some "types"
  | .Variable => some "variables"
  | .Function => some "variables"
  | _ => none

/-- Kinds whose items carry `ApiParameterListMixin` (so have an
`overloadIndex`). -/
def isParameterListKind : ApiItemKind → Bool
  | .Method | .MethodSignature | .Function => true
  | _ => false

/-- Kinds whose items carry `ApiStaticMixin`. -/
def isStaticMixinKind : ApiItemKind → Bool
  | .Method | .Property => true
  | _ => false

/-- `_getAnchorForApiItem` (lines 2165-2196). -/
def getAnchorForApiItem (it : HierItem) : Option String :=
  let anchor : Option String :=
    match it.kind with
    | .MethodSignature | .Method => some (it.displayName ++ "-method")
    | .PropertySignature | .Property =>
        if it.isEventProperty then some (it.displayName ++ "-event")
        else some (it.displayName ++ "-property")
    | _ => none
  let anchor : Option String :=
    match anchor with
    | some a =>
        if isStaticMixinKind it.kind && it.isStatic then some (a ++ "-static") else some a
    | none => none
  match anchor with
  | some a =>
      if isParameterListKind it.kind && decide (0 < it.overloadIndex) then
        some (a ++ "-" ++ toString it.overloadIndex)
      else some a
  | none => none

/-- The qualified name of a hierarchy row: display name plus the `_N` overload
suffix (lines 2102-2108). -/
def qualifiedNameOf (it : HierItem) : String :=
  if isParameterListKind it.kind && decide (0 < it.overloadIndex) then
    it.displayName ++ "_" ++ toString it.overloadIndex
  else it.displayName

/-- One iteration of the hierarchy loop of `_getFilenameForApiItem`
(lines 2101-2155); the accumulator is `(baseName, hashName)`. -/
def filenameStep (acc : String × Option String) (it : HierItem) : String × Option String :=
  match it.kind with
  | .Model | .EntryPoint | .Package => acc
  | .Method | .MethodSignature | .Property | .PropertySignature =>
      (acc.1, getAnchorForApiItem it)
  | _ =>
      let base := acc.1
      let base := if base ≠ "" then base ++ "/" else base
      let base :=
        match folderForKind it.kind with
        | some f => base ++ f ++ "/"
        | none => base
      (base ++ qualifiedNameOf it, acc.2)

/-- `_getFilenameForApiItem` (lines 2098-2163), with `apiItem.getHierarchy()`
passed explicitly (outermost row first). -/
def getFilenameForApiItem (hier : List HierItem) : String :=
  let acc := hier.foldl filenameStep ("", none)
  let name := (if lowerStr acc.1 = "" then "index" else lowerStr acc.1) ++ ".md"
  match acc.2 with
  | some h => name ++ "#" ++ h
  | none => name

/-- Whether a hierarchy row contributes a path segment (the `default` branch
of the second switch of `_getFilenameForApiItem`). -/
def contributesSegment (k : ApiItemKind) : Bool :=
  match k with
  | .Model | .EntryPoint | .Package
  | .Method | .MethodSignature | .Property | .PropertySignature => false
  | _ => true

/-- Kinds that set the `#anchor` part instead of a path segment. -/
def isAnchorKind (k : ApiItemKind) : Bool :=
  match k with
  | .Method | .MethodSignature | .Property | .PropertySignature => true
  | _ => false

/-- The raw (not yet lower-cased) text of one contributing segment, folder
prefix included. -/
def segTextOf (it : HierItem) : String :=
  (match folderForKind it.kind with
   | some f => f ++ "/"
   | none => "") ++ qualifiedNameOf it

/-- Join path segments with `/`. -/
def joinSegs : List String → String
  | [] => ""
  | [s] => s
  | s :: rest => s ++ "/" ++ joinSegs rest

/-- The anchor of a hierarchy: the `hashName` variable of the source, which is
overwritten by each anchor-kind row of the hierarchy. -/
def hierAnchor (hier : List HierItem) : Option String :=
  hier.foldl (fun h it => if isAnchorKind it.kind then getAnchorForApiItem it else h) none

/-- The page path spelt exactly as the C6 claim reads it: the lower-cased
`/`-joined walk of the contributing rows, in which only each NON-leaf segment
is prefixed with its per-kind folder name, with the `index` fallback, `.md`,
and the `#anchor` suffix.  (The claim-side definition, to be compared with
`getFilenameForApiItem`.) -/
def claimFilenameC6 (hier : List HierItem) : String :=
  let items := hier.filter (fun it => contributesSegment it.kind)
  let segs : List String :=
    match items.getLast? with
    | none => []
    | some lastIt => items.dropLast.map segTextOf ++ [qualifiedNameOf lastIt]
  let joined := joinSegs (segs.map lowerStr)
  let name := (if joined = "" then "index" else joined) ++ ".md"
  match hierAnchor hier with
  | some h => name ++ "#" ++ h
  | none => name

/-- The C6 claim amended to what the code does: EVERY contributing segment
(the leaf included) carries its per-kind folder prefix. -/
def amendedFilenameC6 (hier : List HierItem) : String :=
  let segs := (hier.filter (fun it => contributesSegment it.kind)).map segTextOf
  let joined := joinSegs (segs.map lowerStr)
  let name := (if joined = "" then "index" else joined) ++ ".md"
  match hierAnchor hier with
  | some h => name ++ "#" ++ h
  | none => name

/-! ### Supporting lemmas about strings and segment joins -/

theorem strAppend_assoc (a b c : String) : a ++ b ++ c = a ++ (b ++ c) := by
  apply String.ext
  simp [String.data_append]

theorem strAppend_eq_empty_iff (a b : String) : a ++ b = "" ↔ a = "" ∧ b = "" := by
  cases a with
  | mk da =>
    cases b with
    | mk db =>
      constructor
      · intro h
        have hd : da ++ db = [] := congrArg String.data h
        rcases List.append_eq_nil.mp hd with ⟨h1, h2⟩
        exact ⟨congrArg String.mk h1, congrArg String.mk h2⟩
      · rintro ⟨h1, h2⟩
        rw [h1, h2]
        rfl

theorem lowerStr_append (a b : String) : lowerStr (a ++ b) = lowerStr a ++ lowerStr b := by
  apply String.ext
  simp [lowerStr, String.data_append]

theorem lowerStr_empty_iff (a : String) : lowerStr a = "" ↔ a = "" := by
  cases a with
  | mk da =>
    constructor
    · intro h
      have hd : da.map lowerChar = [] := congrArg String.data h
      cases da with
      | nil => rfl
      | cons c cs => simp at hd
    · intro h
      rw [h]
      rfl

theorem joinSegs_cons (s : String) (rest : List String) (h : rest ≠ []) :
    joinSegs (s :: rest) = s ++ "/" ++ joinSegs rest := by
  cases rest with
  | nil => exact absurd rfl h
  | cons t ts => rfl

theorem lowerStr_slash : lowerStr "/" = "/" := by decide

theorem lowerStr_joinSegs (l : List String) :
    lowerStr (joinSegs l) = joinSegs (l.map lowerStr) := by
  induction l with
  | nil => rfl
  | cons s rest ih =>
    cases rest with
    | nil => rfl
    | cons t ts =>
      have h1 : joinSegs (s :: t :: ts) = s ++ "/" ++ joinSegs (t :: ts) :=
        joinSegs_cons _ _ (by simp)
      have h2 :
          joinSegs (lowerStr s :: lowerStr t :: ts.map lowerStr) =
            lowerStr s ++ "/" ++ joinSegs (lowerStr t :: ts.map lowerStr) :=
        joinSegs_cons _ _ (by simp)
      rw [h1, lowerStr_append, lowerStr_append, lowerStr_slash, ih]
      simp only [List.map_cons]
      rw [h2]

theorem joinSegs_append_of_ne_nil (a b : List String) (ha : a ≠ []) (hb : b ≠ []) :
    joinSegs (a ++ b) = joinSegs a ++ "/" ++ joinSegs b := by
  induction a with
  | nil => exact absurd rfl ha
  | cons s rest ih =>
    cases rest with
    | nil =>
      rw [List.singleton_append, joinSegs_cons _ _ hb]
      rfl
    | cons t ts =>
      rw [List.cons_append, joinSegs_cons _ _ (by simp), joinSegs_cons _ _ (by simp),
        ih (by simp)]
      simp [strAppend_assoc]

/-! ### The filename fold, characterized -/

/-- `filenameStep` sorted by the three kind groups of the source's second
switch. -/
theorem filenameStep_eq (acc : String × Option String) (it : HierItem) :
    filenameStep acc it =
      (if isAnchorKind it.kind then (acc.1, getAnchorForApiItem it)
       else if contributesSegment it.kind then
        ((match folderForKind it.kind with
          | some f => (if acc.1 ≠ "" then acc.1 ++ "/" else acc.1) ++ f ++ "/"
          | none => (if acc.1 ≠ "" then acc.1 ++ "/" else acc.1)) ++ qualifiedNameOf it, acc.2)
       else acc) := by
  rcases it with ⟨k, n, o, s, e⟩
  cases k <;> rfl

theorem anchor_not_contributes {k : ApiItemKind} (h : isAnchorKind k = true) :
    contributesSegment k = false := by
  cases k <;> simp [isAnchorKind, contributesSegment] at h ⊢

theorem segTextOf_ne_empty (it : HierItem) (h : qualifiedNameOf it ≠ "") :
    segTextOf it ≠ "" := by
  intro hc
  rw [segTextOf] at hc
  rcases (strAppend_eq_empty_iff _ _).mp hc with ⟨_, h2⟩
  exact h h2

theorem filename_fold_base (hier : List HierItem) :
    ∀ (b : String) (h : Option String),
      (∀ it ∈ hier, contributesSegment it.kind = true → qualifiedNameOf it ≠ "") →
      (hier.foldl filenameStep (b, h)).1 =
        (if b = "" then
          joinSegs ((hier.filter (fun it => contributesSegment it.kind)).map segTextOf)
         else
          joinSegs (b :: (hier.filter (fun it => contributesSegment it.kind)).map segTextOf)) := by
  induction hier with
  | nil =>
    intro b h _
    by_cases hb : b = "" <;> simp [hb, joinSegs]
  | cons it rest ih =>
    intro b h hne
    have hit := hne it (by simp)
    have hrest : ∀ x ∈ rest, contributesSegment x.kind = true → qualifiedNameOf x ≠ "" :=
      fun x hx => hne x (by simp [hx])
    rw [List.foldl_cons, filenameStep_eq]
    by_cases hanch : isAnchorKind it.kind
    · rw [if_pos hanch, List.filter_cons_of_neg (by simp [anchor_not_contributes hanch])]
      exact ih b (getAnchorForApiItem it) hrest
    · rw [if_neg hanch]
      by_cases hcon : contributesSegment it.kind
      · rw [if_pos hcon, List.filter_cons_of_pos (by simpa using hcon), List.map_cons]
        have hq := hit hcon
        -- the new base equals `b ++ "/" ++ segTextOf it` (or `segTextOf it` for empty `b`)
        have hb' :
            (match folderForKind it.kind with
              | some f => (if b ≠ "" then b ++ "/" else b) ++ f ++ "/"
              | none => (if b ≠ "" then b ++ "/" else b)) ++ qualifiedNameOf it =
            (if b = "" then segTextOf it else b ++ "/" ++ segTextOf it) := by
          by_cases hb : b = ""
          · subst hb
            simp only [ne_eq, not_true_eq_false, if_false, if_pos rfl]
            cases hf : folderForKind it.kind <;>
              simp [segTextOf, hf, strAppend_assoc, String.ext_iff, String.data_append]
          · simp only [ne_eq, hb, not_false_eq_true, if_true, if_neg hb]
            cases hf : folderForKind it.kind <;>
              simp [segTextOf, hf, strAppend_assoc, String.ext_iff, String.data_append]
        rw [hb']
        have hnewne : (if b = "" then segTextOf it else b ++ "/" ++ segTextOf it) ≠ "" := by
          by_cases hb : b = ""
          · simpa [hb] using segTextOf_ne_empty it hq
          · simp only [if_neg hb]
            intro hc
            rcases (strAppend_eq_empty_iff _ _).mp hc with ⟨h1, _⟩
            rcases (strAppend_eq_empty_iff _ _).mp h1 with ⟨hb0, _⟩
            exact hb hb0
        rw [ih _ h hrest, if_neg hnewne]
        by_cases hb : b = ""
        · rw [if_pos hb, if_pos hb]
        · rw [if_neg hb, if_neg hb]
          set ss := (rest.filter (fun x => contributesSegment x.kind)).map segTextOf with hss
          cases hsse : ss with
          | nil => simp [joinSegs]
          | cons u us =>
            rw [joinSegs_cons _ (u :: us) (by simp), joinSegs_cons _ (segTextOf it :: u :: us) (by simp),
              joinSegs_cons _ (u :: us) (by simp)]
            simp [strAppend_assoc]
      · rw [if_neg hcon, List.filter_cons_of_neg (by simpa using hcon)]
        exact ih b h hrest

theorem filename_fold_hash (hier : List HierItem) :
    ∀ (b : String) (h : Option String),
      (hier.foldl filenameStep (b, h)).2 =
        hier.foldl (fun h it => if isAnchorKind it.kind then getAnchorForApiItem it else h) h := by
  induction hier with
  | nil => intro b h; rfl
  | cons it rest ih =>
    intro b h
    rw [List.foldl_cons, List.foldl_cons, filenameStep_eq]
    cases hanch : isAnchorKind it.kind with
    | true =>
      simp only [hanch, if_true]
      exact ih _ _
    | false =>
      simp only [hanch, Bool.false_eq_true, if_false]
      cases hcon : contributesSegment it.kind with
      | true =>
        simp only [if_true]
        exact ih _ _
      | false =>
        simp only [hcon, Bool.false_eq_true, if_false]
        exact ih _ _

/-! ### C6: the page path -/

/-- C6 (amended): for every hierarchy whose contributing rows have a non-empty
qualified name, the path built by `_getFilenameForApiItem` equals the
lower-cased `/`-joined walk of the contributing rows in which EVERY segment
(the leaf included) carries its per-kind folder prefix, with the `index`
fallback, `.md`, and the `#anchor` suffix. -/
theorem c6_path_amended (hier : List HierItem)
    (hne : ∀ it ∈ hier, contributesSegment it.kind = true → qualifiedNameOf it ≠ "") :
    getFilenameForApiItem hier = amendedFilenameC6 hier := by
  rw [getFilenameForApiItem, amendedFilenameC6]
  rw [filename_fold_base hier "" none hne, if_pos rfl, filename_fold_hash hier "" none,
    lowerStr_joinSegs]
  rfl

/-- C6 witness for the amended theorem: a namespace-nested class with an
overloaded static method.  The path is
`namespaces/ns/classes/foo.md#bar-method-static-2`. -/
theorem c6_path_amended_witness :
    getFilenameForApiItem
        [⟨.Package, "my-pkg", 0, false, false⟩, ⟨.EntryPoint, "", 0, false, false⟩,
         ⟨.Namespace, "Ns", 0, false, false⟩, ⟨.Class, "Foo", 0, false, false⟩,
         ⟨.Method, "bar", 2, true, false⟩] =
      amendedFilenameC6
        [⟨.Package, "my-pkg", 0, false, false⟩, ⟨.EntryPoint, "", 0, false, false⟩,
         ⟨.Namespace, "Ns", 0, false, false⟩, ⟨.Class, "Foo", 0, false, false⟩,
         ⟨.Method, "bar", 2, true, false⟩] :=
  c6_path_amended _ (by decide)

/-- C6 counterexample: the claim prefixes only non-leaf segments with the
per-kind folder, so for a class `Foo` directly inside a package it predicts
the path `foo.md`; the code prefixes every segment and produces
`classes/foo.md`. -/
theorem c6_counterexample :
    getFilenameForApiItem
        [⟨.Package, "my-pkg", 0, false, false⟩, ⟨.EntryPoint, "", 0, false, false⟩,
         ⟨.Class, "Foo", 0, false, false⟩] = "classes/foo.md" ∧
    claimFilenameC6
        [⟨.Package, "my-pkg", 0, false, false⟩, ⟨.EntryPoint, "", 0, false, false⟩,
         ⟨.Class, "Foo", 0, false, false⟩] = "foo.md" ∧
    "classes/foo.md" ≠ "foo.md" := by
  refine ⟨by decide, by decide, by decide⟩

/-! ### C5: relative links (`_getLinkFilenameForApiItem`)

Node's `path.dirname` / `path.relative` operate on `/`-separated paths; the
embedding works on the corresponding segment lists (a path string is the
`joinSegs` of its segments; `getFilenameForApiItem` is tied to this model by
`c5_link_round_trip`'s first two conjuncts). -/

/-- The `/`-separated segments of one contributing hierarchy row: the per-kind
folder (when there is one) and the lower-cased qualified name. -/
def segPieces (it : HierItem) : List String :=
  (match folderForKind it.kind with
   | some f => [f]
   | none => []) ++ [lowerStr (qualifiedNameOf it)]

def flatPieces : List HierItem → List String
  | [] => []
  | it :: rest => segPieces it ++ flatPieces rest

/-- The segment list of the path built by `_getFilenameForApiItem`, before the
`.md` extension. -/
def fileSegs (hier : List HierItem) : List String :=
  flatPieces (hier.filter (fun it => contributesSegment it.kind))

def addMdToLast : List String → List String
  | [] => []
  | [s] => [s ++ ".md"]
  | s :: rest => s :: addMdToLast rest

/-- The segments of the page path of a hierarchy: `index.md` when no row
contributes a segment, otherwise the contributed segments with `.md` attached
to the last one. -/
def pageSegs (hier : List HierItem) : List String :=
  match fileSegs hier with
  | [] => ["index.md"]
  | segs => addMdToLast segs

/-- `path.relative` (POSIX) on segment lists of normalized relative paths:
drop the longest common prefix, go up once per remaining segment of the
source directory, then descend into the remaining target segments. -/
def relSegs : List String → List String → List String
  | [], t => t
  | _f :: fs, [] => List.replicate (fs.length + 1) ".."
  | f :: fs, t :: ts =>
      if f = t then relSegs fs ts
      else List.replicate (fs.length + 1) ".." ++ (t :: ts)

/-- The `./` prefixing of `_getLinkFilenameForApiItem` (lines 2207-2210):
`path.relative` output either starts with `..` or is a plain downward path,
and the latter gets `./` prepended. -/
def dotPrefixed (l : List String) : List String :=
  if l.head? = some ".." then l else "." :: l

/-- `_getLinkFilenameForApiItem` (lines 2198-2211) at the segment level: the
relative link from the page whose path has segments `originSegs` to the page
of `target`. -/
def linkFromSegs (originSegs : List String) (target : List HierItem) : List String :=
  dotPrefixed (relSegs originSegs.dropLast (pageSegs target))

/-- Resolution of a relative link against a base directory (the semantics a
markdown reader applies to the emitted link): `.` is skipped, `..` pops one
directory, a plain segment descends. -/
def resolveRel (base : List String) : List String → List String
  | [] => base
  | s :: rest =>
      if s = "." then resolveRel base rest
      else if s = ".." then resolveRel base.dropLast rest
      else resolveRel (base ++ [s]) rest

/-- A path segment with no special meaning during resolution. -/
def plainSeg (s : String) : Bool :=
  s ≠ "" && s ≠ "." && s ≠ ".." && !(s.data.contains '/')

theorem resolveRel_append (b : List String) (l1 l2 : List String) :
    resolveRel b (l1 ++ l2) = resolveRel (resolveRel b l1) l2 := by
  induction l1 generalizing b with
  | nil => rfl
  | cons s rest ih =>
    rw [List.cons_append, resolveRel, resolveRel]
    by_cases h1 : s = "."
    · rw [if_pos h1, if_pos h1, ih]
    · rw [if_neg h1, if_neg h1]
      by_cases h2 : s = ".."
      · rw [if_pos h2, if_pos h2, ih]
      · rw [if_neg h2, if_neg h2, ih]

theorem resolveRel_plain (b : List String) (l : List String)
    (h : ∀ s ∈ l, plainSeg s = true) :
    resolveRel b l = b ++ l := by
  induction l generalizing b with
  | nil => simp [resolveRel]
  | cons s rest ih =>
    have hs := h s (by simp)
    simp only [plainSeg, Bool.and_eq_true, decide_eq_true_eq, ne_eq] at hs
    rw [resolveRel, if_neg hs.1.1.2, if_neg hs.1.2, ih _ (fun x hx => h x (by simp [hx]))]
    simp

theorem resolveRel_ups (l : List String) :
    ∀ b, resolveRel (b ++ l) (List.replicate l.length "..") = b := by
  induction l using List.reverseRecOn with
  | nil => intro b; simp [resolveRel]
  | append_singleton l' a ih =>
    intro b
    rw [List.length_append, List.length_singleton, List.replicate_succ]
    have hstep :
        resolveRel (b ++ (l' ++ [a])) (".." :: List.replicate l'.length "..") =
          resolveRel ((b ++ (l' ++ [a])).dropLast) (List.replicate l'.length "..") := by
      simp [resolveRel]
    rw [hstep, ← List.append_assoc, List.dropLast_append_of_ne_nil _ (by simp)]
    simpa using ih b

theorem resolveRel_relSegs (fd : List String) :
    ∀ (t b : List String), (∀ s ∈ t, plainSeg s = true) →
      resolveRel (b ++ fd) (relSegs fd t) = b ++ t := by
  induction fd with
  | nil =>
    intro t b ht
    rw [relSegs, List.append_nil, resolveRel_plain _ _ ht]
  | cons f fs ih =>
    intro t b ht
    cases t with
    | nil =>
      rw [relSegs]
      have := resolveRel_ups (f :: fs) b
      simpa using this
    | cons x xs =>
      rw [relSegs]
      by_cases hfx : f = x
      · rw [if_pos hfx]
        have := ih xs (b ++ [f]) (fun s hs => ht s (by simp [hs]))
        rw [List.append_assoc] at this
        rw [List.singleton_append] at this
        rw [this, hfx]
        simp
      · rw [if_neg hfx, resolveRel_append]
        have h1 : List.replicate (fs.length + 1) ".." = List.replicate (f :: fs).length ".." := by
          simp
        rw [h1, resolveRel_ups (f :: fs) b, resolveRel_plain _ _ ht]

theorem resolveRel_dotPrefixed (b : List String) (l : List String) :
    resolveRel b (dotPrefixed l) = resolveRel b l := by
  rw [dotPrefixed]
  by_cases h : l.head? = some ".."
  · rw [if_pos h]
  · rw [if_neg h]
    simp [resolveRel]

theorem dotPrefixed_head (l : List String) :
    (dotPrefixed l).head? = some "." ∨ (dotPrefixed l).head? = some ".." := by
  rw [dotPrefixed]
  by_cases h : l.head? = some ".."
  · rw [if_pos h]
    exact Or.inr h
  · rw [if_neg h]
    exact Or.inl rfl

/-! ### Tying `pageSegs` to `getFilenameForApiItem` -/

theorem folder_lower (k : ApiItemKind) (f : String) (h : folderForKind k = some f) :
    lowerStr f = f := by
  cases k <;> simp [folderForKind] at h <;> rw [← h] <;> decide

theorem flatPieces_ne_nil (it : HierItem) (rest : List HierItem) :
    flatPieces (it :: rest) ≠ [] := by
  rw [flatPieces, segPieces]
  cases folderForKind it.kind <;> simp

theorem joinSegs_flatPieces (items : List HierItem) :
    joinSegs (flatPieces items) = joinSegs (items.map (fun it => lowerStr (segTextOf it))) := by
  induction items with
  | nil => rfl
  | cons it rest ih =>
    have hpiece : joinSegs (segPieces it) = lowerStr (segTextOf it) := by
      rw [segPieces, segTextOf]
      cases hf : folderForKind it.kind with
      | none => rfl
      | some f =>
        rw [List.singleton_append, joinSegs_cons _ _ (by simp), lowerStr_append,
          lowerStr_append, lowerStr_slash, folder_lower it.kind f hf]
        rfl
    rw [flatPieces, List.map_cons]
    cases hrest : flatPieces rest with
    | nil =>
      cases rest with
      | nil => simpa [flatPieces, joinSegs] using hpiece
      | cons u us => exact absurd hrest (flatPieces_ne_nil u us)
    | cons p ps =>
      have hrestne : rest ≠ [] := by
        intro hc
        rw [hc] at hrest
        simp [flatPieces] at hrest
      have hmapne : rest.map (fun it => lowerStr (segTextOf it)) ≠ [] := by
        simpa using hrestne
      rw [← hrest, joinSegs_append_of_ne_nil _ _ (by rw [segPieces]; cases folderForKind it.kind <;> simp) (by rw [hrest]; simp),
        joinSegs_cons _ _ hmapne, ih, hpiece]

theorem joinSegs_addMdToLast (l : List String) (hl : l ≠ []) :
    joinSegs (addMdToLast l) = joinSegs l ++ ".md" := by
  induction l with
  | nil => exact absurd rfl hl
  | cons s rest ih =>
    cases rest with
    | nil => rfl
    | cons t ts =>
      rw [show addMdToLast (s :: t :: ts) = s :: addMdToLast (t :: ts) from rfl,
        joinSegs_cons _ _ (by cases ts <;> simp [addMdToLast]),
        joinSegs_cons _ _ (by simp), ih (by simp)]
      simp [strAppend_assoc]

theorem joinSegs_fileSegs (hier : List HierItem) :
    joinSegs (fileSegs hier) =
      lowerStr (joinSegs ((hier.filter (fun it => contributesSegment it.kind)).map segTextOf)) := by
  rw [fileSegs, joinSegs_flatPieces, lowerStr_joinSegs, List.map_map]
  rfl

theorem joinSegs_cons_eq_empty {x : String} {rest : List String}
    (h : joinSegs (x :: rest) = "") : x = "" := by
  cases rest with
  | nil => exact h
  | cons t ts =>
    rw [joinSegs_cons _ _ (by simp)] at h
    rcases (strAppend_eq_empty_iff _ _).mp h with ⟨h1, _⟩
    exact ((strAppend_eq_empty_iff _ _).mp h1).1

/-- The string/segment correspondence: for an anchor-free hierarchy with
non-empty contributing names, the path built by `_getFilenameForApiItem` is
the `/`-join of `pageSegs`. -/
theorem getFilename_eq_joinSegs_pageSegs (hier : List HierItem)
    (hanch : hierAnchor hier = none)
    (hne : ∀ it ∈ hier, contributesSegment it.kind = true → qualifiedNameOf it ≠ "") :
    getFilenameForApiItem hier = joinSegs (pageSegs hier) := by
  rw [getFilenameForApiItem, filename_fold_base hier "" none hne, if_pos rfl,
    filename_fold_hash hier "" none]
  rw [show (hier.foldl (fun h it => if isAnchorKind it.kind then getAnchorForApiItem it else h)
      none) = hierAnchor hier from rfl, hanch]
  rw [pageSegs]
  cases hfs : fileSegs hier with
  | nil =>
    have hfil : (hier.filter (fun it => contributesSegment it.kind)) = [] := by
      by_contra hc
      cases hfe : hier.filter (fun it => contributesSegment it.kind) with
      | nil => exact hc hfe
      | cons u us =>
        rw [fileSegs, hfe] at hfs
        exact absurd hfs (flatPieces_ne_nil u us)
    rw [hfil]
    decide
  | cons p ps =>
    have hjoin := joinSegs_fileSegs hier
    rw [hfs] at hjoin
    have hbase_ne :
        lowerStr (joinSegs ((hier.filter (fun it => contributesSegment it.kind)).map segTextOf))
          ≠ "" := by
      cases hfe : hier.filter (fun it => contributesSegment it.kind) with
      | nil =>
        rw [fileSegs, hfe] at hfs
        simp [flatPieces] at hfs
      | cons u us =>
        have humem : u ∈ hier.filter (fun it => contributesSegment it.kind) := by
          rw [hfe]
          exact List.mem_cons_self u us
        have hu := hne u (List.mem_of_mem_filter humem)
        have hucon : contributesSegment u.kind = true := by
          simpa using List.of_mem_filter humem
        intro hc
        rw [List.map_cons, lowerStr_joinSegs, List.map_cons] at hc
        have := joinSegs_cons_eq_empty hc
        exact segTextOf_ne_empty u (hu hucon) ((lowerStr_empty_iff _).mp this)
    rw [if_neg hbase_ne, joinSegs_addMdToLast _ (by simp), hjoin]

/-- C5: for an origin page and a target declaration whose pages are anchor-free
(Type Table targets: classes, interfaces, enums, type aliases) and whose path
segments are ordinary names, the relative link computed by
`_getLinkFilenameForApiItem` starts with `./` or `../`, and resolving it
against the directory of the origin's own path lands exactly on the path
computed by `_getFilenameForApiItem` for the target.  The first two conjuncts
tie the segment model to the string-building source function. -/
theorem c5_link_round_trip (origin target : List HierItem)
    (hoanch : hierAnchor origin = none) (htanch : hierAnchor target = none)
    (hone : ∀ it ∈ origin, contributesSegment it.kind = true → qualifiedNameOf it ≠ "")
    (htne : ∀ it ∈ target, contributesSegment it.kind = true → qualifiedNameOf it ≠ "")
    (hpt : ∀ s ∈ pageSegs target, plainSeg s = true) :
    getFilenameForApiItem origin = joinSegs (pageSegs origin) ∧
    getFilenameForApiItem target = joinSegs (pageSegs target) ∧
    ((linkFromSegs (pageSegs origin) target).head? = some "." ∨
      (linkFromSegs (pageSegs origin) target).head? = some "..") ∧
    resolveRel (pageSegs origin).dropLast (linkFromSegs (pageSegs origin) target) =
      pageSegs target := by
  refine ⟨getFilename_eq_joinSegs_pageSegs origin hoanch hone,
          getFilename_eq_joinSegs_pageSegs target htanch htne,
          dotPrefixed_head _, ?_⟩
  rw [linkFromSegs, resolveRel_dotPrefixed]
  have h := resolveRel_relSegs ((pageSegs origin).dropLast) (pageSegs target) [] hpt
  simpa using h

/-- A concrete origin page: class `Foo` of a package (path `classes/foo.md`). -/
def c5OriginHier : List HierItem :=
  [⟨.Package, "my-pkg", 0, false, false⟩, ⟨.EntryPoint, "", 0, false, false⟩,
   ⟨.Class, "Foo", 0, false, false⟩]

/-- A concrete link target: enum `Color` of the same package
(path `enums/color.md`). -/
def c5TargetHier : List HierItem :=
  [⟨.Package, "my-pkg", 0, false, false⟩, ⟨.EntryPoint, "", 0, false, false⟩,
   ⟨.Enum, "Color", 0, false, false⟩]

/-- C5 witness: the round trip at the concrete origin `classes/foo.md` and
target `enums/color.md` (link `../enums/color.md`). -/
theorem c5_link_round_trip_witness :
    getFilenameForApiItem c5OriginHier = joinSegs (pageSegs c5OriginHier) ∧
    getFilenameForApiItem c5TargetHier = joinSegs (pageSegs c5TargetHier) ∧
    ((linkFromSegs (pageSegs c5OriginHier) c5TargetHier).head? = some "." ∨
      (linkFromSegs (pageSegs c5OriginHier) c5TargetHier).head? = some "..") ∧
    resolveRel (pageSegs c5OriginHier).dropLast
        (linkFromSegs (pageSegs c5OriginHier) c5TargetHier) =
      pageSegs c5TargetHier :=
  c5_link_round_trip c5OriginHier c5TargetHier rfl rfl (by decide) (by decide) (by decide)

/-! ## C10: type resolution (`_resolveType`) and C7: base-type extraction
(`_extractBaseType`) -/

/-- A character matched by the JavaScript regex class `[\w_]`: letter, digit
or underscore. -/
def isWordChar (c : Char) : Bool :=
  ('a' ≤ c && c ≤ 'z') || ('A' ≤ c && c ≤ 'Z') || ('0' ≤ c && c ≤ '9') || c = '_'

/-- `/^[\w_]/.test(type)`: does the string start with a word character? -/
def isWordLeading (s : String) : Bool :=
  match s.data with
  | [] => false
  | c :: _ => isWordChar c

/-- Lookup in the Type Table (`Map.get`; keys are unique, so the first match
is the entry). -/
def lookupType (typeMap : List (String × Decl)) (name : String) : Option Decl :=
  match typeMap with
  | [] => none
  | (k, v) :: rest => if k = name then some v else lookupType rest name

/-- `new Set(array)` keeps the first occurrence of each element, in order. -/
def dedupAux (seen : List String) : List String → List String
  | [] => []
  | s :: rest =>
      if seen.contains s then dedupAux seen rest
      else s :: dedupAux (s :: seen) rest

def dedupKeepFirst (l : List String) : List String := dedupAux [] l

/-- The `for (const name of candidates)` loop of `_resolveType`: the first
candidate present in the type table wins. -/
def firstTypeHit (typeMap : List (String × Decl)) : List String → Option Decl
  | [] => none
  | name :: rest =>
      match lookupType typeMap name with
      | some d => some d
      | none => firstTypeHit typeMap rest

/-- `_resolveType` (lines 1974-2002).  `hierScopedNames` is
`originItem.getHierarchy().map(x => x.getScopedNameWithinPackage())`, outermost
row first (Model/Package/EntryPoint rows have scoped name `""`). -/
def resolveType (typeMap : List (String × Decl)) (hierScopedNames : List String)
    (type : String) : Option Decl :=
  if isWordLeading type = false then none
  else
    firstTypeHit typeMap
      (dedupKeepFirst ((hierScopedNames.map
        (fun itemName => if itemName = "" then type else itemName ++ "." ++ type)).reverse))

/-- A TypeScript identifier-start character. -/
def isIdentStart (c : Char) : Bool :=
  ('a' ≤ c && c ≤ 'z') || ('A' ≤ c && c ≤ 'Z') || c = '_' || c = '$'

/-- A character of a qualified identifier (`A.B.C`). -/
def isQualIdentChar (c : Char) : Bool :=
  isIdentStart c || ('0' ≤ c && c ≤ '9') || c = '.'

/-- Modelled from the spec: the external TypeScript parse of `const a:<type>`
performed by `_getType`/`_extractBaseType` (lines 2218-2245) — the parser
itself is a dependency, not part of this repository.  Per spec §4.1 the parse
"strips generic/parameter syntax and keeps the leading qualified identifier";
a text that does not begin with an identifier (an object-literal, quoted
literal or parenthesized type, ...) does not parse as a `TypeReference`.
Returns the `typeName` text of a type-reference excerpt, `none` otherwise. -/
def parseTypeRefName (type : String) : Option String :=
  match type.data.dropWhile (fun c => c = ' ') with
  | [] => none
  | c :: rest =>
      if isIdentStart c then some ⟨c :: rest.takeWhile isQualIdentChar⟩ else none

/-- `_extractBaseType` (lines 2231-2245): for a type-reference excerpt,
resolve the reference text against the type table, falling back to the bare
text as a plain-text label; for anything else return `undefined`. -/
def extractBaseType (typeMap : List (String × Decl)) (hierScopedNames : List String)
    (type : String) : Option (Sum Decl String) :=
  match parseTypeRefName type with
  | some typeText =>
      match resolveType typeMap hierScopedNames typeText with
      | some d => some (Sum.inl d)
      | none => some (Sum.inr typeText)
  | none => none

theorem firstTypeHit_dedupAux (m : List (String × Decl)) (l : List String) :
    ∀ seen, (∀ s ∈ seen, lookupType m s = none) →
      firstTypeHit m (dedupAux seen l) = firstTypeHit m l := by
  induction l with
  | nil => intro seen _; rfl
  | cons s rest ih =>
    intro seen hseen
    rw [dedupAux]
    by_cases hs : seen.contains s
    · rw [if_pos hs, ih seen hseen]
      have hms : s ∈ seen := by simpa using hs
      have : lookupType m s = none := hseen s hms
      rw [firstTypeHit, this]
    · rw [if_neg hs]
      rw [firstTypeHit, firstTypeHit]
      cases hl : lookupType m s with
      | some d => rfl
      | none =>
        exact ih (s :: seen) (by
          intro x hx
          rcases List.mem_cons.mp hx with h | h
          · rw [h, hl]
          · exact hseen x h)

theorem firstTypeHit_none (m : List (String × Decl)) (l : List String)
    (h : ∀ n ∈ l, lookupType m n = none) : firstTypeHit m l = none := by
  induction l with
  | nil => rfl
  | cons s rest ih =>
    rw [firstTypeHit, h s (by simp)]
    exact ih (fun n hn => h n (by simp [hn]))

/-- C10: a type text not starting with a word character never resolves (so its
excerpt renders as a plain code span, never a cross-link); a word-leading text
resolves to the first Type Table hit among the `scopePrefix.name` candidates
built from the origin item's hierarchy, innermost scope first (the `Set`
deduplication does not change the winner), and to nothing when no candidate is
in the table. -/
theorem c10_resolve_type (m : List (String × Decl)) (hier : List String) (type : String) :
    (isWordLeading type = false → resolveType m hier type = none) ∧
    (isWordLeading type = true →
      resolveType m hier type =
        firstTypeHit m ((hier.map
          (fun itemName => if itemName = "" then type else itemName ++ "." ++ type)).reverse) ∧
      ((∀ n ∈ hier.map (fun itemName => if itemName = "" then type else itemName ++ "." ++ type),
          lookupType m n = none) →
        resolveType m hier type = none)) := by
  constructor
  · intro h
    rw [resolveType, if_pos h]
  · intro h
    have hr : resolveType m hier type =
        firstTypeHit m ((hier.map
          (fun itemName => if itemName = "" then type else itemName ++ "." ++ type)).reverse) := by
      rw [resolveType, if_neg (by simp [h])]
      exact firstTypeHit_dedupAux m _ [] (by intro s hs; simp at hs)
    refine ⟨hr, fun hnone => ?_⟩
    rw [hr]
    exact firstTypeHit_none m _ (fun n hn => hnone n (List.mem_reverse.mp hn))

/-- A concrete type table: `Animal` at package scope. -/
def c10Animal : Decl := .mk 5 .Interface "Animal" [] none [] []

def c10TypeMap : List (String × Decl) := [("Animal", c10Animal)]

/-- C10 witness: `(Foo)` (parenthesized, not word-leading) never resolves;
`Animal` resolves through the candidate walk. -/
theorem c10_resolve_type_witness :
    resolveType c10TypeMap ["", "", "Dog"] "(Foo)" = none ∧
    resolveType c10TypeMap ["", "", "Dog"] "Animal" =
      firstTypeHit c10TypeMap ((["", "", "Dog"].map
        (fun itemName => if itemName = "" then "Animal" else itemName ++ "." ++ "Animal")).reverse) :=
  ⟨(c10_resolve_type c10TypeMap ["", "", "Dog"] "(Foo)").1 rfl,
   ((c10_resolve_type c10TypeMap ["", "", "Dog"] "Animal").2 rfl).1⟩

/-- C7 counterexample: for the parenthesized excerpt `(Foo)` (which does not
parse as a type reference) `_extractBaseType` returns `undefined`: the parent
reference is silently dropped, with no plain-text fallback label, although the
text does not resolve to any Type Table entry.  The claim demands the fallback
label `some (Sum.inr "(Foo)")`. -/
theorem c7_counterexample :
    extractBaseType [] ["", ""] "(Foo)" = none ∧
    (some (Sum.inr "(Foo)") : Option (Sum Decl String)) ≠ none :=
  ⟨rfl, by simp⟩

/-- C7 (amended): base-type extraction is total and never raises, but it
degrades in two different ways: an excerpt that parses as a type reference
and does not resolve in the Type Table yields the bare reference text as a
plain-text fallback label, while an excerpt that does not parse as a type
reference yields no parent at all (silently dropped). -/
theorem c7_extract_base_type_amended (m : List (String × Decl)) (hier : List String)
    (type : String) :
    (extractBaseType m hier type = none ↔ parseTypeRefName type = none) ∧
    (∀ name, parseTypeRefName type = some name →
      ((∀ n ∈ hier.map (fun itemName => if itemName = "" then name else itemName ++ "." ++ name),
          lookupType m n = none) →
        extractBaseType m hier type = some (Sum.inr name)) ∧
      (∀ d, resolveType m hier name = some d →
        extractBaseType m hier type = some (Sum.inl d))) := by
  constructor
  · constructor
    · intro h
      cases hp : parseTypeRefName type with
      | none => rfl
      | some name =>
        exfalso
        rw [extractBaseType, hp] at h
        cases hr : resolveType m hier name with
        | some d => simp [hr] at h
        | none => simp [hr] at h
    · intro h
      rw [extractBaseType, h]
  · intro name hp
    constructor
    · intro hnone
      have hres : resolveType m hier name = none := by
        cases hw : isWordLeading name with
        | false => exact (c10_resolve_type m hier name).1 hw
        | true => exact ((c10_resolve_type m hier name).2 hw).2 hnone
      rw [extractBaseType, hp]
      simp [hres]
    · intro d hd
      rw [extractBaseType, hp]
      simp [hd]

/-- C7 witness for the amended theorem: with an empty type table, the
reference text `Base<T>` parses to `Base` and falls back to the plain-text
label `Base`. -/
theorem c7_extract_base_type_amended_witness :
    extractBaseType [] ["", "", "Dog"] "Base<T>" = some (Sum.inr "Base") :=
  (((c7_extract_base_type_amended [] ["", "", "Dog"] "Base<T>").2 "Base" rfl).1)
    (fun _ _ => rfl)

/-! ## C2: the Hierarchy Resolver (`_generateTypeMapping`,
`_generateClassHierarchy`) -/

/-- The `Refs` record of the source (lines 2265-2270): each parent/child
reference is either a resolved declaration or a plain-text fallback label. -/
structure Refs where
  parentClass : Option (Sum Decl String)
  childClasses : List (Sum Decl String)
  parentInterfaces : List (Sum Decl String)
  childInterfaces : List (Sum Decl String)

/-- `Map.get` on a `Map<ApiItem, Refs>`: keys are compared by object identity
(modelled by `id`). -/
def getRefs (map : List (Decl × Refs)) (key : Decl) : Option Refs :=
  match map with
  | [] => none
  | (k, v) :: rest => if k.id = key.id then some v else getRefs rest key

/-- `Map.set` on a `Map<ApiItem, Refs>`: replaces in place or appends. -/
def setRefs (map : List (Decl × Refs)) (key : Decl) (value : Refs) : List (Decl × Refs) :=
  match map with
  | [] => [(key, value)]
  | (k, v) :: rest =>
      if k.id = key.id then (k, value) :: rest else (k, v) :: setRefs rest key value

/-- `Map.set` on the string-keyed Type Table. -/
def setType (map : List (String × Decl)) (key : String) (value : Decl) :
    List (String × Decl) :=
  match map with
  | [] => [(key, value)]
  | (k, v) :: rest =>
      if k = key then (k, value) :: rest else (k, v) :: setType rest key value

/-- Kinds whose `getScopedNameWithinPackage()` is the empty string (the
root/package/entry-point wrapper rows). -/
def isScopeWrapper : ApiItemKind → Bool
  | .Model | .EntryPoint | .Package => true
  | _ => false

/-- A breadth-first queue entry: the declaration together with the scoped
names of its `getHierarchy()` rows (outermost first; the embedding's trees
have no parent pointers, so the data the source reads off the object graph is
carried in the queue). -/
structure QEntry where
  decl : Decl
  hierScopedNames : List String
  scopedName : String

/-- The queue entry of a containment child: its scoped name extends the
parent's by a dot-joined display name (wrapper rows keep the empty scope). -/
def childEntry (e : QEntry) (c : Decl) : QEntry :=
  let sname :=
    if isScopeWrapper c.kind then ""
    else if e.scopedName = "" then c.displayName
    else e.scopedName ++ "." ++ c.displayName
  ⟨c, e.hierScopedNames ++ [sname], sname⟩

/-- The queue entry of the package itself (hierarchy: model row, package row;
both scoped `""`). -/
def packageEntry (pkg : Decl) : QEntry := ⟨pkg, ["", ""], ""⟩

/-- The `while (children.length > 0)` queue loop of `_generateTypeMapping`
(lines 90-111), with explicit fuel. -/
def generateTypeMappingLoop (fuel : Nat) (queue : List QEntry)
    (map : List (String × Decl)) : List (String × Decl) :=
  match fuel, queue with
  | 0, _ => map
  | _ + 1, [] => map
  | fuel + 1, e :: rest =>
      let map :=
        match e.decl.kind with
        | .Class | .Enum | .Interface | .TypeAlias => setType map e.scopedName e.decl
        | _ => map
      generateTypeMappingLoop fuel (rest ++ e.decl.members.map (childEntry e)) map

/-- `_generateTypeMapping` (lines 90-111).  The containment tree is finite, so
any fuel at least the number of tree nodes reproduces the source loop. -/
def generateTypeMapping (fuel : Nat) (pkg : Decl) : List (String × Decl) :=
  generateTypeMappingLoop fuel (pkg.members.map (childEntry (packageEntry pkg))) []

/-- The forward-edge queue loop of `_generateClassHierarchy` (lines 119-179):
classes get `parentClass` from their `extends` text and `parentInterfaces`
from their `implements` texts; interfaces get `parentInterfaces` from their
`extends` texts; unresolvable texts are dropped by the `if` guards. -/
def classHierarchyForwardLoop (typeMap : List (String × Decl)) (fuel : Nat)
    (queue : List QEntry) (map : List (Decl × Refs)) : List (Decl × Refs) :=
  match fuel, queue with
  | 0, _ => map
  | _ + 1, [] => map
  | fuel + 1, e :: rest =>
      let map :=
        match e.decl.kind with
        | .Class =>
            setRefs map e.decl
              { parentClass :=
                  match e.decl.classExtendsText with
                  | some t => extractBaseType typeMap e.hierScopedNames t
                  | none => none
                childClasses := []
                parentInterfaces :=
                  e.decl.implementsTexts.filterMap
                    (fun t => extractBaseType typeMap e.hierScopedNames t)
                childInterfaces := [] }
        | .Interface =>
            setRefs map e.decl
              { parentClass := none
                childClasses := []
                parentInterfaces :=
                  e.decl.ifaceExtendsTexts.filterMap
                    (fun t => extractBaseType typeMap e.hierScopedNames t)
                childInterfaces := [] }
        | _ => map
      classHierarchyForwardLoop typeMap fuel (rest ++ e.decl.members.map (childEntry e)) map

/-- One iteration of the reverse-edge pass of `_generateClassHierarchy`
(lines 184-216) for the entry `(child, refs)`: a resolved `parentClass` gets
the child appended to its `childInterfaces` list (this is what the source
does); a resolved parent interface gets the child appended to `childClasses`
or `childInterfaces` according to the child's kind. -/
def reverseStep (map : List (Decl × Refs)) (entry : Decl × Refs) : List (Decl × Refs) :=
  let child := entry.1
  let map :=
    match entry.2.parentClass with
    | some (Sum.inl parent) =>
        let refs := (getRefs map parent).getD ⟨none, [], [], []⟩
        setRefs map parent
          { refs with childInterfaces := refs.childInterfaces ++ [Sum.inl child] }
    | _ => map
  entry.2.parentInterfaces.foldl
    (fun map pi =>
      match pi with
      | Sum.inl parent =>
          let refs := (getRefs map parent).getD ⟨none, [], [], []⟩
          if child.kind = .Class then
            setRefs map parent
              { refs with childClasses := refs.childClasses ++ [Sum.inl child] }
          else
            setRefs map parent
              { refs with childInterfaces := refs.childInterfaces ++ [Sum.inl child] }
      | Sum.inr _ => map) map

/-- `_generateClassHierarchy` (lines 113-219): the forward pass followed by
the reverse-edge pass.  The reverse pass folds over a snapshot of the map's
entries; entries the source adds during its live iteration carry no parent
edges and contribute nothing when visited, so the snapshot fold is
behavior-preserving. -/
def generateClassHierarchy (typeMap : List (String × Decl)) (fuel : Nat) (pkg : Decl) :
    List (Decl × Refs) :=
  let fwd :=
    classHierarchyForwardLoop typeMap fuel (pkg.members.map (childEntry (packageEntry pkg))) []
  fwd.foldl reverseStep fwd

/-- A reference with declarations projected to their identities, for stating
concrete results. -/
def refId : Sum Decl String → Sum Nat String
  | Sum.inl d => Sum.inl d.id
  | Sum.inr s => Sum.inr s

/-- Base class `A`. -/
def c2DeclA : Decl := .mk 11 .Class "A" [] none [] []

/-- Class `B extends A`. -/
def c2DeclB : Decl := .mk 12 .Class "B" [] (some "A") [] []

def c2Entry : Decl := .mk 10 .EntryPoint "" [c2DeclA, c2DeclB] none [] []

def c2Pkg : Decl := .mk 9 .Package "pkg" [c2Entry] none [] []

def c2TypeMap : List (String × Decl) := generateTypeMapping 10 c2Pkg

def c2Hierarchy : List (Decl × Refs) := generateClassHierarchy c2TypeMap 10 c2Pkg

/-- C2: in the forest `class A; class B extends A`, the forward edge
`B.parentClass = A` is resolved, but the reverse pass records `B` in `A`'s
`childInterfaces` and leaves `A.childClasses` empty — the bucket is NOT chosen
by the child's kind for `extends` edges, contradicting the claimed invariant
(and starving `_generateParentTree`, which grafts through `childClasses`). -/
theorem c2_reverse_edge_code_bug :
    (getRefs c2Hierarchy c2DeclB).map (fun r => r.parentClass.map refId) =
      some (some (Sum.inl 11)) ∧
    (getRefs c2Hierarchy c2DeclA).map
        (fun r => (r.childClasses.map refId, r.childInterfaces.map refId)) =
      some ([], [Sum.inl 12]) := by
  constructor
  · rfl
  · rfl

/-! ## C3, C4: the Member Resolver (`_getInheritedMembers`,
`_getResolvedMembers`) and the class-hierarchy parent walk
(`_generateParentTree`) -/

/-- One `{level, alternates}` group of the source's members map
(lines 759-762). -/
structure LevelEntry where
  level : Nat
  alternates : List Decl

/-- `Map.get` on the string-keyed members map. -/
def getMembers (map : List (String × List LevelEntry)) (key : String) :
    Option (List LevelEntry) :=
  match map with
  | [] => none
  | (k, v) :: rest => if k = key then some v else getMembers rest key

/-- `Map.set` on the string-keyed members map. -/
def setMembers (map : List (String × List LevelEntry)) (key : String)
    (value : List LevelEntry) : List (String × List LevelEntry) :=
  match map with
  | [] => [(key, value)]
  | (k, v) :: rest =>
      if k = key then (k, value) :: rest else (k, v) :: setMembers rest key value

/-- Recording one member of the current item during the upward walk
(lines 778-798): a fresh name opens a chain with one level group; a known
name either extends its last level group (same level: another overload
alternate) or appends a new level group. -/
def addMember (members : List (String × List LevelEntry)) (level : Nat) (m : Decl) :
    List (String × List LevelEntry) :=
  match getMembers members m.displayName with
  | none => setMembers members m.displayName [⟨level, [m]⟩]
  | some hierarchy =>
      let newHierarchy :=
        match hierarchy.getLast? with
        | some lastLevel =>
            if lastLevel.level ≠ level then hierarchy ++ [⟨level, [m]⟩]
            else hierarchy.dropLast ++ [⟨lastLevel.level, lastLevel.alternates ++ [m]⟩]
        | none => [⟨level, [m]⟩]
      setMembers members m.displayName newHierarchy

/-- The `while (currentLevel.length > 0)` loop of `_getInheritedMembers`
(lines 775-815), with explicit fuel and no other change: there is NO visited
set, the loop just keeps following `parentClass`/`parentInterfaces` edges.
`none` means the loop has not finished within `fuel` iterations. -/
def inheritedLoop (imap : List (Decl × Refs)) :
    Nat → List (String × List LevelEntry) → List (Sum Decl String) →
      List (Sum Decl String) → Nat → Option (List (String × List LevelEntry))
  | 0, _, _, _, _ => none
  | _ + 1, members, [], _, _ => some members
  | fuel + 1, members, current :: rest, nextLevel, level =>
      let step : List (String × List LevelEntry) × List (Sum Decl String) :=
        match current with
        | Sum.inr _ => (members, nextLevel)
        | Sum.inl d =>
            let members := d.members.foldl (fun ms m => addMember ms level m) members
            let nextLevel :=
              match getRefs imap d with
              | some refs =>
                  (nextLevel ++
                    (match refs.parentClass with
                     | some p => [p]
                     | none => [])) ++ refs.parentInterfaces
              | none => nextLevel
            (members, nextLevel)
      if rest.isEmpty then inheritedLoop imap fuel step.1 step.2 [] (level + 1)
      else inheritedLoop imap fuel step.1 rest step.2 level

/-- The starting frontier of the walk: the item's direct `parentClass` (if
any) followed by its `parentInterfaces` (lines 766-772). -/
def startLevel (imap : List (Decl × Refs)) (apiItem : Decl) : List (Sum Decl String) :=
  match getRefs imap apiItem with
  | some r =>
      (match r.parentClass with
       | some p => [p]
       | none => []) ++ r.parentInterfaces
  | none => []

/-- `_getInheritedMembers` (lines 755-826) with fuel: runs the walk and
flattens each name's per-level groups into one nearest-first chain
(lines 817-825). -/
def getInheritedMembersFuel (imap : List (Decl × Refs)) (fuel : Nat) (apiItem : Decl) :
    Option (List (String × List Decl)) :=
  (inheritedLoop imap fuel [] (startLevel imap apiItem) [] 1).map
    (fun ms => ms.map (fun kv =>
      (kv.1, kv.2.foldl (fun acc le => acc ++ le.alternates) [])))

/-- `ResolvedMember` (lines 2277-2280). -/
structure ResolvedMember where
  ownMember : Option Decl
  parents : List Decl

/-- One entry of the sorted inherited list (`{first: v[0], chain: v}`,
lines 708-713). -/
structure InhEntry where
  first : Decl
  chain : List Decl

/-- The value `v[0]` reads off an empty chain in JavaScript would be
`undefined`; chains are provably never empty, this placeholder makes the
embedding total. -/
def dummyDecl : Decl := .mk 0 .Class "" [] none [] []

/-- `a.displayName.localeCompare(b.displayName) <= 0`, the sort relation of
`_getResolvedMembers` (JavaScript `Array.prototype.sort` is stable; a stable
sort is modelled exactly by insertion sort). -/
def declNameLe (a b : Decl) : Prop := strLe a.displayName b.displayName = true

instance : DecidableRel declNameLe := fun _ _ => decEq _ _

instance : IsTotal Decl declNameLe :=
  ⟨fun a b => by
    rcases Bool.or_eq_true_iff.mp (strLe_total a.displayName b.displayName) with h | h
    · exact Or.inl h
    · exact Or.inr h⟩

instance : IsTrans Decl declNameLe := ⟨fun _ _ _ => strLe_trans⟩

/-- The key order of the inherited-entries sort (line 709). -/
def entryKeyLe (a b : String × List Decl) : Prop := strLe a.1 b.1 = true

instance : DecidableRel entryKeyLe := fun _ _ => decEq _ _

instance : IsTotal (String × List Decl) entryKeyLe :=
  ⟨fun a b => by
    rcases Bool.or_eq_true_iff.mp (strLe_total a.1 b.1) with h | h
    · exact Or.inl h
    · exact Or.inr h⟩

instance : IsTrans (String × List Decl) entryKeyLe := ⟨fun _ _ _ => strLe_trans⟩

/-- The merge loop of `_getResolvedMembers` (lines 717-750): each iteration
shifts at least one list, so a fuel of the summed lengths reproduces the
loop. -/
def mergeLoop : Nat → List Decl → List InhEntry → List ResolvedMember
  | 0, _, _ => []
  | _ + 1, [], [] => []
  | fuel + 1, [], i :: is => ⟨none, i.chain⟩ :: mergeLoop fuel [] is
  | fuel + 1, o :: os, [] => ⟨some o, []⟩ :: mergeLoop fuel os []
  | fuel + 1, o :: os, i :: is =>
      if strLt i.first.displayName o.displayName then
        -- own name compares greater: emit the inherited entry
        ⟨none, i.chain⟩ :: mergeLoop fuel (o :: os) is
      else if strLt o.displayName i.first.displayName then
        ⟨some o, []⟩ :: mergeLoop fuel os (i :: is)
      else
        ⟨some o, i.chain⟩ :: mergeLoop fuel os is

/-- The pure tail of `_getResolvedMembers` (lines 696-753): sort the own
members by name, sort the inherited map entries by key, and merge-join. -/
def resolveFromRaw (apiItem : Decl) (raw : List (String × List Decl)) :
    List ResolvedMember :=
  let ownMembers := apiItem.members.insertionSort declNameLe
  let inheritedMembers :=
    (raw.insertionSort entryKeyLe).map (fun kv => InhEntry.mk (kv.2.headD dummyDecl) kv.2)
  mergeLoop (ownMembers.length + inheritedMembers.length) ownMembers inheritedMembers

/-- `_getResolvedMembers` (lines 696-753) with the walk's fuel. -/
def getResolvedMembersFuel (imap : List (Decl × Refs)) (fuel : Nat) (apiItem : Decl) :
    Option (List ResolvedMember) :=
  (getInheritedMembersFuel imap fuel apiItem).map (resolveFromRaw apiItem)

/-- The display name a resolved member is rendered under
(`resolvedMember.ownMember || resolvedMember.parents[0]`, line 1156). -/
def nameOfRM (rm : ResolvedMember) : String :=
  match rm.ownMember with
  | some o => o.displayName
  | none => (rm.parents.headD dummyDecl).displayName

/-! ### C3 counterexample: overloaded own members -/

/-- First overload of `foo`. -/
def c3M1 : Decl := .mk 21 .Method "foo" [] none [] []

/-- Second overload of `foo` (same display name, its own `ApiItem`). -/
def c3M2 : Decl := .mk 22 .Method "foo" [] none [] []

/-- A class declaring the two same-named overloads. -/
def c3Item : Decl := .mk 20 .Class "C" [c3M1, c3M2] none [] []

/-- C3 counterexample: with two same-named own overloads `foo`, member
resolution returns TWO entries named `foo` — not one entry per distinct name,
and the name sequence is not strictly ascending. -/
theorem c3_counterexample :
    (getResolvedMembersFuel [] 1 c3Item).map (fun rms => rms.map nameOfRM) =
      some ["foo", "foo"] ∧
    ¬ List.Pairwise (fun a b => strLt a b = true) ["foo", "foo"] :=
  ⟨rfl, by decide⟩

/-! ### C4: no guard against revisiting, so cycles loop forever -/

/-- A node of the hierarchy diagram tree (lines 2272-2275). -/
inductive TreeNode where
  | mk (item : Sum Decl String) (children : List TreeNode)

def TreeNode.item : TreeNode → Sum Decl String
  | .mk i _ => i

/-- JavaScript `===` on `ApiItem | string` values (object identity via `id`,
value equality on strings). -/
def refEq : Sum Decl String → Sum Decl String → Bool
  | Sum.inl a, Sum.inl b => a.id == b.id
  | Sum.inr a, Sum.inr b => a == b
  | _, _ => false

/-- `_generateParentTree` (lines 899-927) with fuel: the upward walk through
`parentClass` links, grafting the already-built child subtree where it
matches; again there is no revisit guard. -/
def generateParentTreeFuel (imap : List (Decl × Refs)) :
    Nat → Sum Decl String → TreeNode → Option TreeNode
  | 0, _, _ => none
  | _ + 1, Sum.inr s, childNode => some (.mk (Sum.inr s) [childNode])
  | fuel + 1, Sum.inl d, childNode =>
      let mapEntry := getRefs imap d
      let children :=
        (match mapEntry with
         | some r => r.childClasses
         | none => []).map
          (fun child => if refEq child childNode.item then childNode else .mk child [])
      match mapEntry with
      | some r =>
          match r.parentClass with
          | some p => generateParentTreeFuel imap fuel p (.mk (Sum.inl d) children)
          | none => some (.mk (Sum.inl d) children)
      | none => some (.mk (Sum.inl d) children)

/-- Malformed input: `class A extends B`. -/
def c4A : Decl := .mk 31 .Class "A" [] (some "B") [] []

/-- Malformed input: `class B extends A`. -/
def c4B : Decl := .mk 32 .Class "B" [] (some "A") [] []

def c4Entry : Decl := .mk 30 .EntryPoint "" [c4A, c4B] none [] []

def c4Pkg : Decl := .mk 29 .Package "pkg" [c4Entry] none [] []

/-- The inheritance graph the Hierarchy Resolver itself builds for the
malformed two-class cycle. -/
def c4Imap : List (Decl × Refs) :=
  generateClassHierarchy (generateTypeMapping 10 c4Pkg) 10 c4Pkg

theorem c4_imap_cycle :
    (getRefs c4Imap c4A).map (fun r => r.parentClass.map refId) =
      some (some (Sum.inl 32)) ∧
    (getRefs c4Imap c4B).map (fun r => r.parentClass.map refId) =
      some (some (Sum.inl 31)) :=
  ⟨rfl, rfl⟩

theorem getRefs_c4Imap_A :
    getRefs c4Imap c4A =
      some ⟨some (Sum.inl c4B), [], [], [Sum.inl c4B]⟩ := rfl

theorem getRefs_c4Imap_B :
    getRefs c4Imap c4B =
      some ⟨some (Sum.inl c4A), [], [], [Sum.inl c4A]⟩ := rfl

theorem c4_inherited_loop_diverges :
    ∀ fuel : Nat, ∀ (members : List (String × List LevelEntry)) (level : Nat),
      inheritedLoop c4Imap fuel members [Sum.inl c4A] [] level = none ∧
      inheritedLoop c4Imap fuel members [Sum.inl c4B] [] level = none := by
  intro fuel
  induction fuel with
  | zero => intro members level; exact ⟨rfl, rfl⟩
  | succ n ih =>
    intro members level
    constructor
    · show inheritedLoop c4Imap (n + 1) members [Sum.inl c4A] [] level = none
      rw [inheritedLoop]
      simp only [getRefs_c4Imap_A]
      exact (ih members (level + 1)).2
    · show inheritedLoop c4Imap (n + 1) members [Sum.inl c4B] [] level = none
      rw [inheritedLoop]
      simp only [getRefs_c4Imap_B]
      exact (ih members (level + 1)).1

theorem c4_parent_tree_diverges :
    ∀ fuel : Nat, ∀ node : TreeNode,
      generateParentTreeFuel c4Imap fuel (Sum.inl c4A) node = none ∧
      generateParentTreeFuel c4Imap fuel (Sum.inl c4B) node = none := by
  intro fuel
  induction fuel with
  | zero => intro node; exact ⟨rfl, rfl⟩
  | succ n ih =>
    intro node
    constructor
    · rw [generateParentTreeFuel]
      simp only [getRefs_c4Imap_A]
      exact (ih _).2
    · rw [generateParentTreeFuel]
      simp only [getRefs_c4Imap_B]
      exact (ih _).1

/-- C4: on the malformed forest `class A extends B; class B extends A` the
Hierarchy Resolver itself produces a cyclic graph (first two conjuncts), and
on that graph both upward walks run forever — `_getInheritedMembers`' level
loop re-enqueues the other class at every level and `_generateParentTree`
recurses through `parentClass` without end, because neither walk guards
against revisiting a node (no `none`-free fuel exists). -/
theorem c4_walks_do_not_terminate :
    ((getRefs c4Imap c4A).map (fun r => r.parentClass.map refId) =
        some (some (Sum.inl 32)) ∧
      (getRefs c4Imap c4B).map (fun r => r.parentClass.map refId) =
        some (some (Sum.inl 31))) ∧
    (∀ fuel : Nat, getInheritedMembersFuel c4Imap fuel c4A = none) ∧
    (∀ fuel : Nat, ∀ node : TreeNode,
      generateParentTreeFuel c4Imap fuel (Sum.inl c4A) node = none) := by
  refine ⟨c4_imap_cycle, ?_, fun fuel node => (c4_parent_tree_diverges fuel node).1⟩
  intro fuel
  rw [getInheritedMembersFuel]
  have hstart : startLevel c4Imap c4A = [Sum.inl c4B] := rfl
  rw [hstart]
  cases fuel with
  | zero => rfl
  | succ n => rw [(c4_inherited_loop_diverges (n + 1) [] 1).2]; rfl

/-! ### C3 (amended): tools about the strict string order -/

theorem strLt_trans {a b c : String} (h₁ : strLt a b = true) (h₂ : strLt b c = true) :
    strLt a c = true := charListLt_trans h₁ h₂

theorem strLt_irrefl (a : String) : strLt a a = false := charListLt_irrefl _

theorem strLt_ne {a b : String} (h : strLt a b = true) : a ≠ b := by
  intro hc
  rw [hc, strLt_irrefl] at h
  exact Bool.false_ne_true h

theorem strLt_of_strLe_of_ne {a b : String} (hle : strLe a b = true) (hne : a ≠ b) :
    strLt a b = true := by
  rw [strLe, Bool.not_eq_true'] at hle
  rcases strLt_or_eq_of_not_lt hle with h | h
  · exact h
  · exact absurd h hne

/-! ### C3 (amended): invariants of the members map built by the walk -/

/-- Well-formedness of the members map of `_getInheritedMembers`: unique keys,
non-empty per-name level lists, non-empty level groups, and every alternate
named after its key. -/
def MembersWF (ms : List (String × List LevelEntry)) : Prop :=
  (ms.map Prod.fst).Nodup ∧
  ∀ kv ∈ ms, kv.2 ≠ [] ∧ ∀ le ∈ kv.2, le.alternates ≠ [] ∧
    ∀ m ∈ le.alternates, m.displayName = kv.1

theorem getLast?_some_mem {α : Type} {l : List α} {a : α} (h : l.getLast? = some a) :
    a ∈ l := by
  cases l with
  | nil => simp at h
  | cons x xs =>
    have hne : x :: xs ≠ [] := by simp
    rw [List.getLast?_eq_getLast _ hne, Option.some_inj] at h
    rw [← h]
    exact List.getLast_mem hne

theorem getMembers_some_mem {ms : List (String × List LevelEntry)} {k : String}
    {v : List LevelEntry} (h : getMembers ms k = some v) : (k, v) ∈ ms := by
  induction ms with
  | nil => simp [getMembers] at h
  | cons kv rest ih =>
    rcases kv with ⟨k', v'⟩
    rw [getMembers] at h
    by_cases hk : k' = k
    · rw [if_pos hk, Option.some_inj] at h
      subst hk
      subst h
      exact List.mem_cons_self _ _
    · rw [if_neg hk] at h
      exact List.mem_cons_of_mem _ (ih h)

theorem getMembers_none_not_mem {ms : List (String × List LevelEntry)} {k : String}
    (h : getMembers ms k = none) : k ∉ ms.map Prod.fst := by
  induction ms with
  | nil => simp
  | cons kv rest ih =>
    rcases kv with ⟨k', v'⟩
    rw [getMembers] at h
    by_cases hk : k' = k
    · rw [if_pos hk] at h
      exact absurd h (by simp)
    · rw [if_neg hk] at h
      simp only [List.map_cons, List.mem_cons]
      rintro (hc | hc)
      · exact hk hc.symm
      · exact ih h hc

theorem setMembers_keys_of_mem {ms : List (String × List LevelEntry)} {k : String}
    (v : List LevelEntry) (h : k ∈ ms.map Prod.fst) :
    (setMembers ms k v).map Prod.fst = ms.map Prod.fst := by
  induction ms with
  | nil => simp at h
  | cons kv rest ih =>
    rcases kv with ⟨k', v'⟩
    rw [setMembers]
    by_cases hk : k' = k
    · rw [if_pos hk]
      rfl
    · rw [if_neg hk]
      simp only [List.map_cons, List.mem_cons] at h ⊢
      rcases h with hc | hc
      · exact absurd hc.symm hk
      · rw [ih hc]

theorem setMembers_keys_of_not_mem {ms : List (String × List LevelEntry)} {k : String}
    (v : List LevelEntry) (h : k ∉ ms.map Prod.fst) :
    (setMembers ms k v).map Prod.fst = ms.map Prod.fst ++ [k] := by
  induction ms with
  | nil => rfl
  | cons kv rest ih =>
    rcases kv with ⟨k', v'⟩
    rw [setMembers]
    by_cases hk : k' = k
    · exact absurd (by simp [hk]) h
    · rw [if_neg hk]
      simp only [List.map_cons, List.cons_append]
      rw [ih (by intro hc; exact h (by simp [hc]))]

theorem mem_setMembers_elim {ms : List (String × List LevelEntry)} {k : String}
    {v : List LevelEntry} {kv : String × List LevelEntry}
    (h : kv ∈ setMembers ms k v) : kv = (k, v) ∨ kv ∈ ms := by
  induction ms with
  | nil => simpa [setMembers] using h
  | cons kv' rest ih =>
    rcases kv' with ⟨k', v'⟩
    rw [setMembers] at h
    by_cases hk : k' = k
    · rw [if_pos hk] at h
      rcases List.mem_cons.mp h with hc | hc
      · subst hk
        exact Or.inl hc
      · exact Or.inr (List.mem_cons_of_mem _ hc)
    · rw [if_neg hk] at h
      rcases List.mem_cons.mp h with hc | hc
      · exact Or.inr (by simp [hc])
      · rcases ih hc with hc' | hc'
        · exact Or.inl hc'
        · exact Or.inr (List.mem_cons_of_mem _ hc')

/-- The fresh value written by `setMembers` in `addMember` satisfies the
per-entry invariant for the key `m.displayName`. -/
theorem singleLevel_props (level : Nat) (m : Decl) :
    ([(⟨level, [m]⟩ : LevelEntry)] ≠ []) ∧
      ∀ le ∈ [(⟨level, [m]⟩ : LevelEntry)], le.alternates ≠ [] ∧
        ∀ x ∈ le.alternates, x.displayName = m.displayName := by
  refine ⟨by simp, ?_⟩
  intro le hle
  simp only [List.mem_singleton] at hle
  subst hle
  refine ⟨by simp, ?_⟩
  intro x hx
  simp only [List.mem_singleton] at hx
  subst hx
  rfl

theorem setMembers_wf {ms : List (String × List LevelEntry)} {k : String}
    {v : List LevelEntry}
    (hkeys : (ms.map Prod.fst).Nodup)
    (hent : ∀ kv ∈ ms, kv.2 ≠ [] ∧ ∀ le ∈ kv.2, le.alternates ≠ [] ∧
      ∀ m ∈ le.alternates, m.displayName = kv.1)
    (hv : v ≠ [] ∧ ∀ le ∈ v, le.alternates ≠ [] ∧ ∀ m ∈ le.alternates, m.displayName = k) :
    MembersWF (setMembers ms k v) := by
  constructor
  · by_cases hk : k ∈ ms.map Prod.fst
    · rw [setMembers_keys_of_mem _ hk]
      exact hkeys
    · rw [setMembers_keys_of_not_mem _ hk, List.nodup_append]
      exact ⟨hkeys, List.nodup_singleton _, by
        intro x hx hx'
        simp only [List.mem_singleton] at hx'
        subst hx'
        exact hk hx⟩
  · intro kv hkv
    rcases mem_setMembers_elim hkv with hc | hc
    · subst hc
      exact hv
    · exact hent kv hc

theorem addMember_wf {ms : List (String × List LevelEntry)} (level : Nat) (m : Decl)
    (h : MembersWF ms) : MembersWF (addMember ms level m) := by
  obtain ⟨hkeys, hent⟩ := h
  cases hg : getMembers ms m.displayName with
  | none =>
    have heq : addMember ms level m = setMembers ms m.displayName [⟨level, [m]⟩] := by
      simp only [addMember, hg]
    rw [heq]
    exact setMembers_wf hkeys hent (singleLevel_props level m)
  | some hierarchy =>
    have hmem := getMembers_some_mem hg
    have hprops := hent _ hmem
    cases hl : hierarchy.getLast? with
    | none =>
      have heq : addMember ms level m = setMembers ms m.displayName [⟨level, [m]⟩] := by
        simp only [addMember, hg, hl]
      rw [heq]
      exact setMembers_wf hkeys hent (singleLevel_props level m)
    | some lastLevel =>
      have hlmem : lastLevel ∈ hierarchy := getLast?_some_mem hl
      by_cases hlev : lastLevel.level ≠ level
      · have heq : addMember ms level m =
            setMembers ms m.displayName (hierarchy ++ [⟨level, [m]⟩]) := by
          simp only [addMember, hg, hl, if_pos hlev]
        rw [heq]
        refine setMembers_wf hkeys hent ⟨by simp, ?_⟩
        intro le hle
        rcases List.mem_append.mp hle with hc' | hc'
        · exact hprops.2 le hc'
        · simp only [List.mem_singleton] at hc'
          subst hc'
          refine ⟨by simp, ?_⟩
          intro x hx
          simp only [List.mem_singleton] at hx
          subst hx
          rfl
      · have heq : addMember ms level m =
            setMembers ms m.displayName
              (hierarchy.dropLast ++ [⟨lastLevel.level, lastLevel.alternates ++ [m]⟩]) := by
          simp only [addMember, hg, hl, if_neg hlev]
        rw [heq]
        refine setMembers_wf hkeys hent ⟨by simp, ?_⟩
        intro le hle
        rcases List.mem_append.mp hle with hc' | hc'
        · exact hprops.2 le ((List.dropLast_sublist hierarchy).subset hc')
        · simp only [List.mem_singleton] at hc'
          subst hc'
          refine ⟨by simp [(hprops.2 lastLevel hlmem).1], ?_⟩
          intro x hx
          rcases List.mem_append.mp hx with hx' | hx'
          · exact (hprops.2 lastLevel hlmem).2 x hx'
          · simp only [List.mem_singleton] at hx'
            subst hx'
            rfl

theorem foldl_addMember_wf (level : Nat) (l : List Decl)
    {ms : List (String × List LevelEntry)} (h : MembersWF ms) :
    MembersWF (l.foldl (fun ms m => addMember ms level m) ms) := by
  induction l generalizing ms with
  | nil => exact h
  | cons m rest ih => exact ih (addMember_wf level m h)

theorem inheritedLoop_wf (imap : List (Decl × Refs)) :
    ∀ (fuel : Nat) (ms : List (String × List LevelEntry))
      (cur nxt : List (Sum Decl String)) (level : Nat)
      (out : List (String × List LevelEntry)),
      MembersWF ms → inheritedLoop imap fuel ms cur nxt level = some out →
      MembersWF out := by
  intro fuel
  induction fuel with
  | zero =>
    intro ms cur nxt level out _ h
    simp [inheritedLoop] at h
  | succ n ih =>
    intro ms cur nxt level out hwf h
    cases cur with
    | nil =>
      simp only [inheritedLoop] at h
      rw [← Option.some_inj.mp h]
      exact hwf
    | cons current rest =>
      simp only [inheritedLoop] at h
      by_cases hr : rest.isEmpty
      · rw [if_pos hr] at h
        cases current with
        | inr s => exact ih _ _ _ _ _ hwf h
        | inl d => exact ih _ _ _ _ _ (foldl_addMember_wf level d.members hwf) h
      · rw [if_neg hr] at h
        cases current with
        | inr s => exact ih _ _ _ _ _ hwf h
        | inl d => exact ih _ _ _ _ _ (foldl_addMember_wf level d.members hwf) h

/-- Well-formedness of the flattened inherited-member map: unique keys,
non-empty chains, every chain member named after its key. -/
def RawWF (raw : List (String × List Decl)) : Prop :=
  (raw.map Prod.fst).Nodup ∧
  ∀ kv ∈ raw, kv.2 ≠ [] ∧ ∀ m ∈ kv.2, m.displayName = kv.1

theorem mem_foldl_alternates (levs : List LevelEntry) (acc : List Decl) (x : Decl) :
    x ∈ levs.foldl (fun acc le => acc ++ le.alternates) acc ↔
      x ∈ acc ∨ ∃ le ∈ levs, x ∈ le.alternates := by
  induction levs generalizing acc with
  | nil => simp
  | cons le rest ih =>
    rw [List.foldl_cons, ih]
    constructor
    · rintro (hc | hc)
      · rcases List.mem_append.mp hc with hc' | hc'
        · exact Or.inl hc'
        · exact Or.inr ⟨le, by simp, hc'⟩
      · rcases hc with ⟨le', hle', hx⟩
        exact Or.inr ⟨le', by simp [hle'], hx⟩
    · rintro (hc | ⟨le', hle', hx⟩)
      · exact Or.inl (List.mem_append.mpr (Or.inl hc))
      · rcases List.mem_cons.mp hle' with hc' | hc'
        · subst hc'
          exact Or.inl (List.mem_append.mpr (Or.inr hx))
        · exact Or.inr ⟨le', hc', hx⟩

theorem raw_wf (ms : List (String × List LevelEntry)) (h : MembersWF ms) :
    RawWF (ms.map (fun kv => (kv.1, kv.2.foldl (fun acc le => acc ++ le.alternates) []))) := by
  obtain ⟨hkeys, hent⟩ := h
  constructor
  · have hmm :
        ((ms.map fun kv => (kv.1, kv.2.foldl (fun acc le => acc ++ le.alternates) [])).map
          Prod.fst) = ms.map Prod.fst := by
      simp [List.map_map]
    rw [hmm]
    exact hkeys
  · intro kv hkv
    rcases List.mem_map.mp hkv with ⟨kv0, hkv0, rfl⟩
    obtain ⟨hne, hprops⟩ := hent kv0 hkv0
    constructor
    · cases hlev : kv0.2 with
      | nil => exact absurd hlev hne
      | cons le0 rest =>
        obtain ⟨halt, _⟩ := hprops le0 (hlev ▸ List.mem_cons_self _ _)
        cases halt0 : le0.alternates with
        | nil => exact absurd halt0 halt
        | cons a arest =>
          apply List.ne_nil_of_mem (a := a)
          show a ∈ List.foldl (fun acc le => acc ++ le.alternates) [] (le0 :: rest)
          rw [mem_foldl_alternates]
          exact Or.inr ⟨le0, List.mem_cons_self _ _, halt0 ▸ List.mem_cons_self _ _⟩
    · intro m hm
      rcases (mem_foldl_alternates _ _ _).mp hm with hc | ⟨le, hle, hmle⟩
      · simp at hc
      · exact (hprops le hle).2 m hmle

theorem inherited_raw_wf (imap : List (Decl × Refs)) (fuel : Nat) (item : Decl)
    (raw : List (String × List Decl))
    (h : getInheritedMembersFuel imap fuel item = some raw) : RawWF raw := by
  rw [getInheritedMembersFuel] at h
  cases hloop : inheritedLoop imap fuel [] (startLevel imap item) [] 1 with
  | none => rw [hloop] at h; simp at h
  | some ms =>
    rw [hloop] at h
    simp only [Option.map] at h
    have hwf := inheritedLoop_wf imap fuel [] (startLevel imap item) [] 1 ms
      ⟨by simp, by intro kv hkv; simp at hkv⟩ hloop
    rw [← Option.some_inj.mp h]
    exact raw_wf ms hwf

/-! ### C3 (amended): the merge-join -/

/-- The name a sorted inherited entry is compared under. -/
def inhName (i : InhEntry) : String := i.first.displayName

theorem nameOfRM_inh (chain : List Decl) :
    nameOfRM ⟨none, chain⟩ = (chain.headD dummyDecl).displayName := rfl

theorem nameOfRM_own (o : Decl) (chain : List Decl) :
    nameOfRM ⟨some o, chain⟩ = o.displayName := rfl

/-- Chain-head naming hypothesis: the entries were built with
`first = chain.headD`, so the rendered name of an inherited-only entry is the
name the merge compared on. -/
def ChainHeadNamed (inh : List InhEntry) : Prop :=
  ∀ e ∈ inh, (e.chain.headD dummyDecl).displayName = e.first.displayName

theorem mergeLoop_names_mem :
    ∀ (fuel : Nat) (own : List Decl) (inh : List InhEntry),
      own.length + inh.length ≤ fuel → ChainHeadNamed inh →
      ∀ n, (n ∈ (mergeLoop fuel own inh).map nameOfRM ↔
        n ∈ own.map Decl.displayName ∨ n ∈ inh.map inhName) := by
  intro fuel
  induction fuel with
  | zero =>
    intro own inh hlen _ n
    have ho : own = [] := List.length_eq_zero.mp (by omega)
    have hi : inh = [] := List.length_eq_zero.mp (by omega)
    subst ho
    subst hi
    simp [mergeLoop]
  | succ f ih =>
    intro own inh hlen hfc n
    cases own with
    | nil =>
      cases inh with
      | nil => simp [mergeLoop]
      | cons i is =>
        rw [show mergeLoop (f + 1) [] (i :: is) = ⟨none, i.chain⟩ :: mergeLoop f [] is
          from rfl]
        simp only [List.map_cons, List.mem_cons, nameOfRM_inh]
        rw [ih [] is (by simp at hlen ⊢; omega) (fun e he => hfc e (by simp [he]))]
        rw [hfc i (by simp)]
        simp [inhName]
    | cons o os =>
      cases inh with
      | nil =>
        rw [show mergeLoop (f + 1) (o :: os) [] = ⟨some o, []⟩ :: mergeLoop f os []
          from rfl]
        simp only [List.map_cons, List.mem_cons, nameOfRM_own]
        rw [ih os [] (by simp at hlen ⊢; omega) (fun e he => by simp at he)]
        simp
      | cons i is =>
        have hfc' : ChainHeadNamed is := fun e he => hfc e (by simp [he])
        by_cases h1 : strLt i.first.displayName o.displayName = true
        · rw [show mergeLoop (f + 1) (o :: os) (i :: is) =
              ⟨none, i.chain⟩ :: mergeLoop f (o :: os) is from by
            rw [mergeLoop, if_pos h1]]
          simp only [List.map_cons, List.mem_cons, nameOfRM_inh]
          rw [ih (o :: os) is (by simp at hlen ⊢; omega) hfc']
          rw [hfc i (by simp)]
          simp only [List.map_cons, List.mem_cons, inhName]
          tauto
        · by_cases h2 : strLt o.displayName i.first.displayName = true
          · rw [show mergeLoop (f + 1) (o :: os) (i :: is) =
                ⟨some o, []⟩ :: mergeLoop f os (i :: is) from by
              rw [mergeLoop, if_neg h1, if_pos h2]]
            simp only [List.map_cons, List.mem_cons, nameOfRM_own]
            rw [ih os (i :: is) (by simp at hlen ⊢; omega) hfc]
            simp only [List.map_cons, List.mem_cons, inhName]
            tauto
          · rw [show mergeLoop (f + 1) (o :: os) (i :: is) =
                ⟨some o, i.chain⟩ :: mergeLoop f os is from by
              rw [mergeLoop, if_neg h1, if_neg h2]]
            have heq : o.displayName = i.first.displayName := by
              rcases strLt_or_eq_of_not_lt (Bool.not_eq_true _ ▸ h1 :
                strLt i.first.displayName o.displayName = false) with hc | hc
              · exact absurd hc h2
              · exact hc
            simp only [List.map_cons, List.mem_cons, nameOfRM_own]
            rw [ih os is (by simp at hlen ⊢; omega) hfc']
            simp only [List.map_cons, List.mem_cons, inhName]
            constructor
            · rintro (hc | hc | hc)
              · exact Or.inl (Or.inl hc)
              · exact Or.inl (Or.inr hc)
              · exact Or.inr (Or.inr hc)
            · rintro ((hc | hc) | (hc | hc))
              · exact Or.inl hc
              · exact Or.inr (Or.inl hc)
              · exact Or.inl (heq ▸ hc)
              · exact Or.inr (Or.inr hc)

theorem mergeLoop_names_sorted :
    ∀ (fuel : Nat) (own : List Decl) (inh : List InhEntry),
      own.length + inh.length ≤ fuel → ChainHeadNamed inh →
      (own.map Decl.displayName).Pairwise (fun a b => strLt a b = true) →
      (inh.map inhName).Pairwise (fun a b => strLt a b = true) →
      ((mergeLoop fuel own inh).map nameOfRM).Pairwise (fun a b => strLt a b = true) := by
  intro fuel
  induction fuel with
  | zero =>
    intro own inh hlen _ _ _
    have ho : own = [] := List.length_eq_zero.mp (by omega)
    have hi : inh = [] := List.length_eq_zero.mp (by omega)
    subst ho
    subst hi
    simp [mergeLoop]
  | succ f ih =>
    intro own inh hlen hfc hown hinh
    cases own with
    | nil =>
      cases inh with
      | nil => simp [mergeLoop]
      | cons i is =>
        have hfc' : ChainHeadNamed is := fun e he => hfc e (by simp [he])
        rw [show mergeLoop (f + 1) [] (i :: is) = ⟨none, i.chain⟩ :: mergeLoop f [] is
          from rfl]
        simp only [List.map_cons] at hinh ⊢
        rw [nameOfRM_inh, hfc i (by simp)]
        refine List.Pairwise.cons ?_ (ih [] is (by simp at hlen ⊢; omega) hfc' (by simp)
          (List.Pairwise.sublist (List.sublist_cons_self _ _) hinh))
        intro n hn
        rw [mergeLoop_names_mem f [] is (by simp at hlen ⊢; omega) hfc'] at hn
        rcases hn with hc | hc
        · simp at hc
        · exact List.rel_of_pairwise_cons hinh hc
    | cons o os =>
      cases inh with
      | nil =>
        rw [show mergeLoop (f + 1) (o :: os) [] = ⟨some o, []⟩ :: mergeLoop f os []
          from rfl]
        simp only [List.map_cons] at hown ⊢
        rw [nameOfRM_own]
        refine List.Pairwise.cons ?_ (ih os [] (by simp at hlen ⊢; omega) (fun e he => by
          simp at he) (List.Pairwise.sublist (List.sublist_cons_self _ _) hown) (by simp))
        intro n hn
        rw [mergeLoop_names_mem f os [] (by simp at hlen ⊢; omega) (fun e he => by
          simp at he)] at hn
        rcases hn with hc | hc
        · exact List.rel_of_pairwise_cons hown hc
        · simp at hc
      | cons i is =>
        have hfc' : ChainHeadNamed is := fun e he => hfc e (by simp [he])
        have howntail : (os.map Decl.displayName).Pairwise (fun a b => strLt a b = true) := by
          simp only [List.map_cons] at hown
          exact List.Pairwise.sublist (List.sublist_cons_self _ _) hown
        have hinhtail : (is.map inhName).Pairwise (fun a b => strLt a b = true) := by
          simp only [List.map_cons] at hinh
          exact List.Pairwise.sublist (List.sublist_cons_self _ _) hinh
        have hownHead : ∀ b ∈ os.map Decl.displayName, strLt o.displayName b = true := by
          intro b hb
          exact List.rel_of_pairwise_cons (R := fun a b => strLt a b = true)
            (by simpa only [List.map_cons] using hown) hb
        have hinhHead : ∀ b ∈ is.map inhName, strLt (inhName i) b = true := by
          intro b hb
          exact List.rel_of_pairwise_cons (R := fun a b => strLt a b = true)
            (by simpa only [List.map_cons] using hinh) hb
        by_cases h1 : strLt i.first.displayName o.displayName = true
        · rw [show mergeLoop (f + 1) (o :: os) (i :: is) =
              ⟨none, i.chain⟩ :: mergeLoop f (o :: os) is from by
            rw [mergeLoop, if_pos h1]]
          simp only [List.map_cons]
          rw [nameOfRM_inh, hfc i (by simp)]
          refine List.Pairwise.cons ?_
            (ih (o :: os) is (by simp at hlen ⊢; omega) hfc' hown hinhtail)
          intro n hn
          rw [mergeLoop_names_mem f (o :: os) is (by simp at hlen ⊢; omega) hfc'] at hn
          rcases hn with hc | hc
          · simp only [List.map_cons, List.mem_cons] at hc
            rcases hc with hc | hc
            · exact hc ▸ h1
            · exact strLt_trans h1 (hownHead n hc)
          · exact hinhHead n hc
        · by_cases h2 : strLt o.displayName i.first.displayName = true
          · rw [show mergeLoop (f + 1) (o :: os) (i :: is) =
                ⟨some o, []⟩ :: mergeLoop f os (i :: is) from by
              rw [mergeLoop, if_neg h1, if_pos h2]]
            simp only [List.map_cons]
            rw [nameOfRM_own]
            refine List.Pairwise.cons ?_
              (ih os (i :: is) (by simp at hlen ⊢; omega) hfc howntail hinh)
            intro n hn
            rw [mergeLoop_names_mem f os (i :: is) (by simp at hlen ⊢; omega) hfc] at hn
            rcases hn with hc | hc
            · exact hownHead n hc
            · simp only [List.map_cons, List.mem_cons] at hc
              rcases hc with hc | hc
              · exact hc ▸ h2
              · exact strLt_trans h2 (hinhHead n hc)
          · have heq : o.displayName = i.first.displayName := by
              rcases strLt_or_eq_of_not_lt (Bool.not_eq_true _ ▸ h1 :
                strLt i.first.displayName o.displayName = false) with hc | hc
              · exact absurd hc h2
              · exact hc
            rw [show mergeLoop (f + 1) (o :: os) (i :: is) =
                ⟨some o, i.chain⟩ :: mergeLoop f os is from by
              rw [mergeLoop, if_neg h1, if_neg h2]]
            simp only [List.map_cons]
            rw [nameOfRM_own]
            refine List.Pairwise.cons ?_
              (ih os is (by simp at hlen ⊢; omega) hfc' howntail hinhtail)
            intro n hn
            rw [mergeLoop_names_mem f os is (by simp at hlen ⊢; omega) hfc'] at hn
            rcases hn with hc | hc
            · exact hownHead n hc
            · rw [heq]
              exact hinhHead n hc

theorem headD_mem {α : Type} {l : List α} (d : α) (h : l ≠ []) : l.headD d ∈ l := by
  cases l with
  | nil => exact absurd rfl h
  | cons x xs => simp

theorem pairwise_strLt_of_le_nodup {ns : List String}
    (hle : ns.Pairwise (fun a b => strLe a b = true)) (hnd : ns.Nodup) :
    ns.Pairwise (fun a b => strLt a b = true) :=
  (hle.and hnd).imp (fun h => strLt_of_strLe_of_ne h.1 h.2)

/-- C3 (amended): for an item whose own members carry pairwise-distinct
display names, and any completed inherited-member walk, `_getResolvedMembers`
returns a list whose rendered display names are strictly ascending (hence one
entry per distinct name) and which contains a name exactly when it is an own
member's name or a name recorded by the walk. -/
theorem c3_resolved_members_amended (imap : List (Decl × Refs)) (fuel : Nat)
    (item : Decl) (raw : List (String × List Decl))
    (hdup : (item.members.map Decl.displayName).Nodup)
    (hraw : getInheritedMembersFuel imap fuel item = some raw) :
    getResolvedMembersFuel imap fuel item = some (resolveFromRaw item raw) ∧
    ((resolveFromRaw item raw).map nameOfRM).Pairwise (fun a b => strLt a b = true) ∧
    ∀ n, (n ∈ (resolveFromRaw item raw).map nameOfRM ↔
      n ∈ item.members.map Decl.displayName ∨ n ∈ raw.map Prod.fst) := by
  obtain ⟨hkeys, hprops⟩ := inherited_raw_wf imap fuel item raw hraw
  have hpermown := List.perm_insertionSort declNameLe item.members
  have hsortown := List.sorted_insertionSort declNameLe item.members
  have hnamesle :
      ((item.members.insertionSort declNameLe).map Decl.displayName).Pairwise
        (fun a b => strLe a b = true) :=
    List.pairwise_map.mpr hsortown
  have hnodupown : ((item.members.insertionSort declNameLe).map Decl.displayName).Nodup :=
    ((hpermown.map Decl.displayName).nodup_iff).mpr hdup
  have hstrictown := pairwise_strLt_of_le_nodup hnamesle hnodupown
  have hpermraw := List.perm_insertionSort entryKeyLe raw
  have hsortraw := List.sorted_insertionSort entryKeyLe raw
  have hkeysle :
      ((raw.insertionSort entryKeyLe).map Prod.fst).Pairwise
        (fun a b => strLe a b = true) :=
    List.pairwise_map.mpr hsortraw
  have hnodupkeys : ((raw.insertionSort entryKeyLe).map Prod.fst).Nodup :=
    ((hpermraw.map Prod.fst).nodup_iff).mpr hkeys
  have hstrictkeys := pairwise_strLt_of_le_nodup hkeysle hnodupkeys
  have hmemraw : ∀ kv ∈ raw.insertionSort entryKeyLe,
      kv.2 ≠ [] ∧ ∀ m ∈ kv.2, m.displayName = kv.1 :=
    fun kv hkv => hprops kv (hpermraw.mem_iff.mp hkv)
  have hinhnames :
      (((raw.insertionSort entryKeyLe).map
          (fun kv => InhEntry.mk (kv.2.headD dummyDecl) kv.2)).map inhName) =
        (raw.insertionSort entryKeyLe).map Prod.fst := by
    rw [List.map_map]
    apply List.map_congr_left
    intro kv hkv
    obtain ⟨hne, hnames⟩ := hmemraw kv hkv
    exact hnames _ (headD_mem dummyDecl hne)
  have hfc : ChainHeadNamed
      ((raw.insertionSort entryKeyLe).map
        (fun kv => InhEntry.mk (kv.2.headD dummyDecl) kv.2)) := by
    intro e he
    rcases List.mem_map.mp he with ⟨kv, _, rfl⟩
    rfl
  have hstrictinh := hinhnames ▸ hstrictkeys
  have hrfr : resolveFromRaw item raw =
      mergeLoop
        ((item.members.insertionSort declNameLe).length +
          ((raw.insertionSort entryKeyLe).map
            (fun kv => InhEntry.mk (kv.2.headD dummyDecl) kv.2)).length)
        (item.members.insertionSort declNameLe)
        ((raw.insertionSort entryKeyLe).map
          (fun kv => InhEntry.mk (kv.2.headD dummyDecl) kv.2)) := rfl
  refine ⟨?_, ?_, ?_⟩
  · rw [getResolvedMembersFuel, hraw]
    rfl
  · rw [hrfr]
    exact mergeLoop_names_sorted _ _ _ (le_refl _) hfc hstrictown hstrictinh
  · intro n
    rw [hrfr, mergeLoop_names_mem _ _ _ (le_refl _) hfc n, hinhnames,
      (hpermown.map Decl.displayName).mem_iff, (hpermraw.map Prod.fst).mem_iff]

/-- Witness data: class `D` with own method `bark`, extending a base with
method `walk`. -/
def c3Bark : Decl := .mk 24 .Method "bark" [] none [] []

def c3Walk : Decl := .mk 25 .Method "walk" [] none [] []

def c3WBase : Decl := .mk 26 .Class "Base" [c3Walk] none [] []

def c3WItem : Decl := .mk 23 .Class "D" [c3Bark] (some "Base") [] []

def c3WImap : List (Decl × Refs) :=
  [(c3WItem, ⟨some (Sum.inl c3WBase), [], [], []⟩)]

/-- C3 witness: the amended theorem at the concrete item (own `bark`,
inherited `walk`). -/
theorem c3_resolved_members_amended_witness :
    getResolvedMembersFuel c3WImap 2 c3WItem =
      some (resolveFromRaw c3WItem [("walk", [c3Walk])]) ∧
    ((resolveFromRaw c3WItem [("walk", [c3Walk])]).map nameOfRM).Pairwise
      (fun a b => strLt a b = true) ∧
    ∀ n, (n ∈ (resolveFromRaw c3WItem [("walk", [c3Walk])]).map nameOfRM ↔
      n ∈ c3WItem.members.map Decl.displayName ∨
        n ∈ ([("walk", [c3Walk])] : List (String × List Decl)).map Prod.fst) :=
  c3_resolved_members_amended c3WImap 2 c3WItem [("walk", [c3Walk])] (by decide) rfl

/-! ## C8/C9: the markdown emitter

`src/markdown/customMarkdownEmitter.ts` (`writeNode`, List case lines 83-107 and
Table case lines 122-176) together with the base class
`src/markdown/markdownEmitter.ts` (`getEscapedText` lines 70-78, `writePlainText`
lines 226-260, the Paragraph/Section cases of `writeNode`, and `writeNodes`
lines 261-268). The `IndentedWriter` the emitter writes through lives in
`src/utils/indentedWriter.ts`, which is not part of the sources; its primitives
are Modelled from the spec, section 4.5: an output buffer able to report the last
character written, with `ensureNewLine` / `ensureSkippedLine` guaranteeing at
most one blank line between blocks. Node recursion depth is bounded by an
explicit fuel parameter; concrete runs are given ample fuel. -/

/-- JavaScript regex whitespace class membership for the characters occurring in
documentation text (`\s` in `/^(\s*)(.*?)(\s*)$/`). -/
def isJsWs (c : Char) : Bool :=
  c = ' ' || c = '\t' || c = '\n' || c = '\r'

/-- Apply a JavaScript global character replacement: each character maps to its
replacement string. -/
def expandChars (f : Char → List Char) : List Char → List Char
  | [] => []
  | c :: rest => f c ++ expandChars f rest

/-- First escaping pass of `getEscapedText`: `.replace(/\\/g, '\\\\')`. -/
def escBackslash (c : Char) : List Char :=
  if c = '\\' then ['\\', '\\'] else [c]

/-- The special characters of the second escaping pass: asterisk, hash, the two
square brackets, underscore, pipe, backtick (written via its code point 96), and
tilde. -/
def mdSpecials : List Char :=
  ['*', '#', '[', ']', '_', '|', Char.ofNat 96, '~']

/-- Second escaping pass: each special character gains a backslash. -/
def escSpecial (c : Char) : List Char :=
  if c ∈ mdSpecials then ['\\', c] else [c]

/-- Third pass, `.replace(/---/g, '\\-\\-\\-')`: left-to-right non-overlapping
replacement of each `---` occurrence. -/
def escHyphens : List Char → List Char
  | '-' :: '-' :: '-' :: rest =>
      '\\' :: '-' :: '\\' :: '-' :: '\\' :: '-' :: escHyphens rest
  | c :: rest => c :: escHyphens rest
  | [] => []

/-- Fourth pass: `&` becomes `&amp;`. -/
def escAmp (c : Char) : List Char :=
  if c = '&' then "&amp;".data else [c]

/-- Fifth pass: `<` becomes `&lt;`. -/
def escLt (c : Char) : List Char :=
  if c = '<' then "&lt;".data else [c]

/-- Sixth pass: `>` becomes `&gt;`. -/
def escGt (c : Char) : List Char :=
  if c = '>' then "&gt;".data else [c]

/-- `MarkdownEmitter.getEscapedText`, `markdownEmitter.ts` lines 70-78: the six
replacement passes in source order. -/
def getEscapedText (text : String) : String :=
  String.mk
    (expandChars escGt (expandChars escLt (expandChars escAmp
      (escHyphens (expandChars escSpecial (expandChars escBackslash text.data))))))

/-- Modelled from the spec, section 4.5: `IndentedWriter.ensureNewLine` appends a
newline unless the buffer is empty or already ends in one. -/
def ensureNewLine (out : String) : String :=
  match out.data.getLast? with
  | none => out
  | some c => if c = '\n' then out else out ++ "\n"

/-- Modelled from the spec, section 4.5: `IndentedWriter.ensureSkippedLine`
guarantees the buffer ends in a blank line (two newlines) unless it is empty. -/
def ensureSkippedLine (out : String) : String :=
  if out.data = [] then out
  else
    let o := ensureNewLine out
    if o.data.reverse.take 2 = ['\n', '\n'] then o else o ++ "\n"

/-- JavaScript `String.prototype.repeat`. -/
def strRepeat (s : String) : Nat → String
  | 0 => ""
  | n + 1 => s ++ strRepeat s n

/-- The mutable emitter context: the writer buffer (`context.writer`), the
`insideTable` flag, and the custom emitter's `listLevel` counter. -/
structure EmitCtx where
  out : String
  insideTable : Bool
  listLevel : Nat

/-- The `switch (writer.peekLastCharacter())` guard of `writePlainText` lines
240-253: `''` (empty buffer), `'\n'`, `' '`, `'['` and `'>'` are the characters
after which no `<!-- -->` marker is needed. -/
def okLastChar : Option Char → Bool
  | none => true
  | some c => c = '\n' || c = ' ' || c = '[' || c = '>'

/-- `MarkdownEmitter.writePlainText`, `markdownEmitter.ts` lines 226-260: split
the text into leading whitespace, core, trailing whitespace (the regex
`/^(\s*)(.*?)(\s*)$/`, which for the newline-free doc-comment texts fed to the
emitter is exactly this longest-prefix/longest-suffix split); write the leading
whitespace, then, if the core is non-empty, an `<!-- -->` marker when the last
character written is unsafe, then the escaped core, then the trailing
whitespace. -/
def writePlainText (ctx : EmitCtx) (text : String) : EmitCtx :=
  let lead := text.data.takeWhile isJsWs
  let rest := text.data.dropWhile isJsWs
  let trail := (rest.reverse.takeWhile isJsWs).reverse
  let middle := (rest.reverse.dropWhile isJsWs).reverse
  let o1 := ctx.out ++ String.mk lead
  let o2 :=
    if middle.isEmpty then o1
    else
      (if okLastChar o1.data.getLast? then o1 else o1 ++ "<!-- -->") ++
        getEscapedText (String.mk middle)
  { ctx with out := o2 ++ String.mk trail }

/-- The Document Node kinds exercised by the List and Table rules: PlainText,
Paragraph, Section, the custom List, and the custom Table (a header row and data
rows, each cell already carrying its content Section as an `MNode`). -/
inductive MNode where
  | plainText (text : String)
  | paragraph (nodes : List MNode)
  | sect (nodes : List MNode)
  | list (nodes : List MNode)
  | table (header : List MNode) (rows : List (List MNode))

/-- The `columnCount` computation of the Table case, lines 130-139: start from
the header cell count, then take every longer data row's cell count. -/
def maxColumns (hdr : Nat) : List (List MNode) → Nat
  | [] => hdr
  | row :: rest => maxColumns (if row.length > hdr then row.length else hdr) rest

/-- `MarkdownEmitter.writeNodes`, lines 261-268: write each node, passing
whether a following sibling exists. The node writer is a parameter so that the
list spine is structurally recursive independently of the fuel. -/
def writeNodesAux (f : EmitCtx → MNode → Bool → Option EmitCtx) :
    EmitCtx → List MNode → Option EmitCtx
  | ctx, [] => some ctx
  | ctx, n :: rest =>
      (f ctx n (!rest.isEmpty)).bind fun c => writeNodesAux f c rest

/-- The item loop of the List case, lines 90-99: a nested List recurses without
a bullet; any other node gets a fresh line, `'  '.repeat((listLevel - 1) * 2)`
of indentation, and a `- ` bullet. -/
def writeListItemsAux (f : EmitCtx → MNode → Bool → Option EmitCtx) :
    EmitCtx → List MNode → Option EmitCtx
  | ctx, [] => some ctx
  | ctx, n :: rest =>
      match n with
      | .list ns =>
          (f ctx (.list ns) false).bind fun c => writeListItemsAux f c rest
      | other =>
          let c := { ctx with
            out := ensureNewLine ctx.out ++ strRepeat "  " ((ctx.listLevel - 1) * 2) ++ "- " }
          (f c other false).bind fun c2 => writeListItemsAux f c2 rest

/-- The header loop of the Table case, lines 142-153: iterate `columnCount`
times, writing a space, the header cell's content when one exists at that index,
and ` |`. -/
def writeHeaderAux (f : EmitCtx → MNode → Bool → Option EmitCtx) :
    EmitCtx → List MNode → Nat → Option EmitCtx
  | ctx, _, 0 => some ctx
  | ctx, cells, count + 1 =>
      let c := { ctx with out := ctx.out ++ " " }
      match cells with
      | [] => writeHeaderAux f { c with out := c.out ++ " |" } [] count
      | cell :: rest =>
          (f c cell false).bind fun c2 =>
            writeHeaderAux f { c2 with out := c2.out ++ " |" } rest count

/-- The per-row cell loop of the Table case, lines 162-166: iterate over the
row's own cells only. -/
def writeRowCellsAux (f : EmitCtx → MNode → Bool → Option EmitCtx) :
    EmitCtx → List MNode → Option EmitCtx
  | ctx, [] => some ctx
  | ctx, cell :: rest =>
      let c := { ctx with out := ctx.out ++ " " }
      (f c cell false).bind fun c2 =>
        writeRowCellsAux f { c2 with out := c2.out ++ " |" } rest

/-- The data-row loop of the Table case, lines 160-168. -/
def writeRowsAux (f : EmitCtx → MNode → Bool → Option EmitCtx) :
    EmitCtx → List (List MNode) → Option EmitCtx
  | ctx, [] => some ctx
  | ctx, row :: rest =>
      let c := { ctx with out := ctx.out ++ "| " }
      (writeRowCellsAux f c row).bind fun c2 =>
        writeRowsAux f { c2 with out := c2.out ++ "\n" } rest

/-- `writeNode` over the modelled kinds, dispatching exactly as the source:
PlainText (`markdownEmitter.ts` line 92) calls `writePlainText`; Paragraph
(lines 130-149) writes its children then either a `<br><br>` separator (inside a
table, when a sibling follows) or an enforced newline plus a blank line
(`DocNodeTransforms.trimSpacesInParagraph` is external `@microsoft/tsdoc` code
and is modelled as the identity; the texts used below carry no edge whitespace);
Section (lines 169-173) writes its children; the custom List case
(`customMarkdownEmitter.ts` lines 83-107) increments `listLevel`, ensures a
skipped line when the new level is 1, writes the items, decrements `listLevel`,
and ensures a skipped line when the decremented level is 1; the custom Table
case (lines 122-176) ensures a skipped line, sets `insideTable`, sizes
`columnCount`, writes the padded header row, the divider row, one line per data
row, a final blank line, and clears `insideTable`. The fuel bounds node nesting
depth; `none` means the fuel ran out. -/
def writeNode : Nat → EmitCtx → MNode → Bool → Option EmitCtx
  | 0, _, _, _ => none
  | fuel + 1, ctx, node, hasNextSibling =>
      match node with
      | .plainText t => some (writePlainText ctx t)
      | .paragraph ns =>
          if ctx.insideTable then
            (writeNodesAux (writeNode fuel) ctx ns).map fun c =>
              if hasNextSibling then { c with out := c.out ++ "<br><br>" } else c
          else
            (writeNodesAux (writeNode fuel) ctx ns).map fun c =>
              { c with out := ensureNewLine c.out ++ "\n" }
      | .sect ns => writeNodesAux (writeNode fuel) ctx ns
      | .list ns =>
          let c1 := { ctx with listLevel := ctx.listLevel + 1 }
          let c2 := if c1.listLevel = 1 then { c1 with out := ensureSkippedLine c1.out } else c1
          (writeListItemsAux (writeNode fuel) c2 ns).map fun c3 =>
            let c4 := { c3 with listLevel := c3.listLevel - 1 }
            if c4.listLevel = 1 then { c4 with out := ensureSkippedLine c4.out } else c4
      | .table header rows =>
          let c1 := { ctx with out := ensureSkippedLine ctx.out, insideTable := true }
          let columnCount := maxColumns header.length rows
          let c2 := { c1 with out := c1.out ++ "| " }
          (writeHeaderAux (writeNode fuel) c2 header columnCount).bind fun c3 =>
            let c4 := { c3 with
              out := c3.out ++ "\n" ++ "| " ++ strRepeat " --- |" columnCount ++ "\n" }
            (writeRowsAux (writeNode fuel) c4 rows).map fun c5 =>
              { c5 with out := c5.out ++ "\n", insideTable := false }

/-- A table cell as the documenter builds one: a `DocTableCell.content` Section
holding one Paragraph of plain text. -/
def cellOf (s : String) : MNode := .sect [.paragraph [.plainText s]]

/-- C8: code bug in the List case's exit check (`customMarkdownEmitter.ts` lines
100-104). The claim (and the entry check's mirror) says leaving depth 1 ensures
a trailing blank line after the outermost list; the code decrements `listLevel`
FIRST and then still compares with 1, so closing the outermost list (level 1 to
0) ensures nothing — the first run leaves `"x\n\n- a"` with no trailing blank
line, so a following block glues onto the bullet line — while closing a nested
list (level 2 back to 1) injects a blank line in the middle of the outer list,
as the second run's `"- a\n    - b\n\n- c"` shows. -/
theorem c8_list_blank_line_code_bug :
    writeNode 5 ⟨"x", false, 0⟩ (.list [.plainText "a"]) false =
      some ⟨"x\n\n- a", false, 0⟩ ∧
    writeNode 9 ⟨"x", false, 0⟩
        (.list [.plainText "a", .list [.plainText "b"], .plainText "c"]) false =
      some ⟨"x\n\n- a\n    - b\n\n- c", false, 0⟩ :=
  ⟨rfl, rfl⟩

/-! Closed forms for the Table output over rows of plain-text cells. -/

/-- A cell string is benign when it is purely alphanumeric, so that escaping and
whitespace splitting are the identity on it. -/
def benignStr (s : String) : Bool := s.data.all Char.isAlphanum

/-- The text the cell loop produces for a row's own cells. -/
def cellsText : List String → String
  | [] => ""
  | s :: rest => " " ++ s ++ " |" ++ cellsText rest

/-- The text the header loop produces: `count` iterations, present cells first,
then empty cells. -/
def headerCellsText : List String → Nat → String
  | _, 0 => ""
  | [], n + 1 => "  |" ++ headerCellsText [] n
  | s :: rest, n + 1 => " " ++ s ++ " |" ++ headerCellsText rest n

/-- The text the data-row loop produces: one `| `-prefixed line per row, with
exactly that row's own cells. -/
def rowsText : List (List String) → String
  | [] => ""
  | row :: rest => "| " ++ cellsText row ++ "\n" ++ rowsText rest

/-- `columnCount` restated over rows of cell strings. -/
def tableColumnCount (hdr : Nat) : List (List String) → Nat
  | [] => hdr
  | row :: rest => tableColumnCount (if row.length > hdr then row.length else hdr) rest

theorem strAppend_nil (s : String) : s ++ "" = s := by
  cases s with
  | mk d => show String.mk (d ++ []) = String.mk d; rw [List.append_nil]

theorem strNil_append (s : String) : "" ++ s = s := by
  cases s with
  | mk d => rfl

theorem strMk_nil : String.mk ([] : List Char) = "" := rfl

theorem strMk_data (s : String) : String.mk s.data = s := by
  cases s with
  | mk d => rfl

theorem expandChars_id {f : Char → List Char} :
    ∀ {l : List Char}, (∀ c ∈ l, f c = [c]) → expandChars f l = l := by
  intro l
  induction l with
  | nil => intro _; rfl
  | cons c rest ih =>
    intro h
    show f c ++ expandChars f rest = c :: rest
    rw [h c (List.mem_cons_self c rest), ih (fun x hx => h x (List.mem_cons_of_mem _ hx))]
    rfl

theorem escHyphens_id : ∀ {l : List Char}, ('-' ∉ l) → escHyphens l = l := by
  intro l
  induction l with
  | nil => intro _; rfl
  | cons c rest ih =>
    intro h
    have hc : c ≠ '-' := fun e => h (e ▸ List.mem_cons_self c rest)
    have h' : '-' ∉ rest := fun m => h (List.mem_cons_of_mem _ m)
    rw [show escHyphens (c :: rest) = c :: escHyphens rest from ?_, ih h']
    match rest with
    | [] => simp [escHyphens]
    | [a] => simp [escHyphens, hc]
    | a :: b :: rest' => simp [escHyphens, hc]

theorem getEscapedText_benign {s : String} (h : benignStr s = true) :
    getEscapedText s = s := by
  have hall : ∀ c ∈ s.data, c.isAlphanum = true := by
    simpa [benignStr, List.all_eq_true] using h
  have hid : ∀ (f : Char → List Char), (∀ c, c.isAlphanum = true → f c = [c]) →
      ∀ {l : List Char}, (∀ c ∈ l, c.isAlphanum = true) → expandChars f l = l :=
    fun f hf _ hl => expandChars_id (fun c hc => hf c (hl c hc))
  have h1 : expandChars escBackslash s.data = s.data := by
    refine hid _ ?_ hall
    intro c hc
    by_cases hb : c = '\\'
    · subst hb; exact absurd hc (by decide)
    · simp [escBackslash, hb]
  have h2 : expandChars escSpecial s.data = s.data := by
    refine hid _ ?_ hall
    intro c hc
    have hnm : c ∉ mdSpecials := by
      intro hm
      have hsp : ∀ x ∈ mdSpecials, x.isAlphanum = false := by decide
      rw [hsp c hm] at hc
      exact Bool.false_ne_true hc
    simp [escSpecial, hnm]
  have h3 : escHyphens s.data = s.data := by
    refine escHyphens_id ?_
    intro hm
    exact absurd (hall _ hm) (by decide)
  have h4 : expandChars escAmp s.data = s.data := by
    refine hid _ ?_ hall
    intro c hc
    by_cases hb : c = '&'
    · subst hb; exact absurd hc (by decide)
    · simp [escAmp, hb]
  have h5 : expandChars escLt s.data = s.data := by
    refine hid _ ?_ hall
    intro c hc
    by_cases hb : c = '<'
    · subst hb; exact absurd hc (by decide)
    · simp [escLt, hb]
  have h6 : expandChars escGt s.data = s.data := by
    refine hid _ ?_ hall
    intro c hc
    by_cases hb : c = '>'
    · subst hb; exact absurd hc (by decide)
    · simp [escGt, hb]
  show String.mk _ = s
  rw [h1, h2, h3, h4, h5, h6]

theorem benign_no_ws {s : String} (h : benignStr s = true) :
    ∀ c ∈ s.data, isJsWs c = false := by
  intro c hc
  have hall : ∀ c ∈ s.data, c.isAlphanum = true := by
    simpa [benignStr, List.all_eq_true] using h
  have hca := hall c hc
  by_cases h1 : c = ' '
  · subst h1; exact absurd hca (by decide)
  by_cases h2 : c = '\t'
  · subst h2; exact absurd hca (by decide)
  by_cases h3 : c = '\n'
  · subst h3; exact absurd hca (by decide)
  by_cases h4 : c = '\r'
  · subst h4; exact absurd hca (by decide)
  simp [isJsWs, h1, h2, h3, h4]

theorem takeWhile_false {p : Char → Bool} :
    ∀ {l : List Char}, (∀ c ∈ l, p c = false) →
      l.takeWhile p = [] ∧ l.dropWhile p = l := by
  intro l h
  cases l with
  | nil => exact ⟨rfl, rfl⟩
  | cons c rest =>
    have hc := h c (List.mem_cons_self c rest)
    constructor
    · simp [List.takeWhile, hc]
    · simp [List.dropWhile, hc]

theorem writePlainText_benign {ctx : EmitCtx} {s : String}
    (hb : benignStr s = true) (hlast : okLastChar ctx.out.data.getLast? = true) :
    writePlainText ctx s = { ctx with out := ctx.out ++ s } := by
  have hws := benign_no_ws hb
  have hwsr : ∀ c ∈ s.data.reverse, isJsWs c = false := by
    intro c hc; exact hws c (List.mem_reverse.mp hc)
  obtain ⟨e1, e2⟩ := takeWhile_false hws
  obtain ⟨e3, e4⟩ := takeWhile_false hwsr
  by_cases hempty : s.data.isEmpty = true
  · have hsmk : s = "" := by
      cases s with
      | mk d =>
        cases d with
        | nil => rfl
        | cons c rest => simp [List.isEmpty] at hempty
    subst hsmk
    simp [writePlainText, strAppend_nil, strMk_nil]
  · simp only [writePlainText, e1, e2, e3, e4, List.reverse_nil, List.reverse_reverse,
      strMk_nil, strAppend_nil, strMk_data, hempty, if_false, Bool.false_eq_true, hlast,
      if_true, getEscapedText_benign hb]

theorem writeCell_benign (fuel : Nat) (ctx : EmitCtx) (s : String)
    (hb : benignStr s = true) (hin : ctx.insideTable = true)
    (hlast : okLastChar ctx.out.data.getLast? = true) :
    writeNode (fuel + 3) ctx (cellOf s) false = some { ctx with out := ctx.out ++ s } := by
  simp only [cellOf, writeNode, writeNodesAux, List.isEmpty, Bool.not_true, hin, if_true,
    Option.bind, Option.map, writePlainText_benign hb hlast, Bool.false_eq_true, if_false]

theorem okLast_append_space (s : String) : okLastChar ((s ++ " ").data.getLast?) = true := by
  show okLastChar ((s.data ++ [' ']).getLast?) = true
  rw [List.getLast?_concat]
  rfl

theorem writeHeaderAux_benign (fuel : Nat) :
    ∀ (count : Nat) (strs : List String) (ctx : EmitCtx),
      (∀ s ∈ strs, benignStr s = true) → ctx.insideTable = true →
      writeHeaderAux (writeNode (fuel + 3)) ctx (strs.map cellOf) count =
        some { ctx with out := ctx.out ++ headerCellsText strs count } := by
  intro count
  induction count with
  | zero =>
    intro strs ctx _ _
    simp [writeHeaderAux, headerCellsText, strAppend_nil]
  | succ n ih =>
    intro strs ctx hb hin
    cases strs with
    | nil =>
      simp only [List.map_nil, writeHeaderAux, headerCellsText]
      rw [show ([] : List MNode) = List.map cellOf [] from rfl,
        ih [] ⟨ctx.out ++ " " ++ " |", ctx.insideTable, ctx.listLevel⟩
          (fun s hs => absurd hs (List.not_mem_nil s)) hin]
      have lit : (" " : String) ++ " |" = "  |" := rfl
      simp only [strAppend_assoc]
      rw [← strAppend_assoc " " " |" (headerCellsText [] n), lit]
    | cons s rest =>
      simp only [List.map_cons, writeHeaderAux, headerCellsText]
      rw [writeCell_benign fuel ⟨ctx.out ++ " ", ctx.insideTable, ctx.listLevel⟩ s
        (hb s (List.mem_cons_self s rest)) hin (okLast_append_space ctx.out)]
      simp only [Option.bind]
      rw [ih rest ⟨ctx.out ++ " " ++ s ++ " |", ctx.insideTable, ctx.listLevel⟩
        (fun x hx => hb x (List.mem_cons_of_mem _ hx)) hin]
      simp only [strAppend_assoc]

theorem writeRowCellsAux_benign (fuel : Nat) :
    ∀ (row : List String) (ctx : EmitCtx),
      (∀ s ∈ row, benignStr s = true) → ctx.insideTable = true →
      writeRowCellsAux (writeNode (fuel + 3)) ctx (row.map cellOf) =
        some { ctx with out := ctx.out ++ cellsText row } := by
  intro row
  induction row with
  | nil =>
    intro ctx _ _
    simp [writeRowCellsAux, cellsText, strAppend_nil]
  | cons s rest ih =>
    intro ctx hb hin
    simp only [List.map_cons, writeRowCellsAux, cellsText]
    rw [writeCell_benign fuel ⟨ctx.out ++ " ", ctx.insideTable, ctx.listLevel⟩ s
      (hb s (List.mem_cons_self s rest)) hin (okLast_append_space ctx.out)]
    simp only [Option.bind]
    rw [ih ⟨ctx.out ++ " " ++ s ++ " |", ctx.insideTable, ctx.listLevel⟩
      (fun x hx => hb x (List.mem_cons_of_mem _ hx)) hin]
    simp only [strAppend_assoc]

theorem writeRowsAux_benign (fuel : Nat) :
    ∀ (rows : List (List String)) (ctx : EmitCtx),
      (∀ row ∈ rows, ∀ s ∈ row, benignStr s = true) → ctx.insideTable = true →
      writeRowsAux (writeNode (fuel + 3)) ctx (rows.map (List.map cellOf)) =
        some { ctx with out := ctx.out ++ rowsText rows } := by
  intro rows
  induction rows with
  | nil =>
    intro ctx _ _
    simp [writeRowsAux, rowsText, strAppend_nil]
  | cons row rest ih =>
    intro ctx hb hin
    simp only [List.map_cons, writeRowsAux, rowsText]
    rw [writeRowCellsAux_benign fuel row ⟨ctx.out ++ "| ", ctx.insideTable, ctx.listLevel⟩
      (hb row (List.mem_cons_self row rest)) hin]
    simp only [Option.bind]
    rw [ih ⟨ctx.out ++ "| " ++ cellsText row ++ "\n", ctx.insideTable, ctx.listLevel⟩
      (fun x hx => hb x (List.mem_cons_of_mem _ hx)) hin]
    simp only [strAppend_assoc]

theorem maxColumns_map (rows : List (List String)) :
    ∀ hdr : Nat, maxColumns hdr (rows.map (List.map cellOf)) = tableColumnCount hdr rows := by
  induction rows with
  | nil => intro hdr; rfl
  | cons row rest ih =>
    intro hdr
    simp only [List.map_cons, maxColumns, tableColumnCount, List.length_map]
    exact ih _

theorem le_tableColumnCount (rows : List (List String)) :
    ∀ hdr : Nat, hdr ≤ tableColumnCount hdr rows := by
  induction rows with
  | nil => intro hdr; exact Nat.le_refl hdr
  | cons row rest ih =>
    intro hdr
    refine Nat.le_trans ?_ (ih (if row.length > hdr then row.length else hdr))
    by_cases h : row.length > hdr
    · simp only [h, if_true]
      exact Nat.le_of_lt h
    · simp only [h, if_false]
      exact Nat.le_refl hdr

theorem headerCellsText_nil : ∀ n : Nat, headerCellsText [] n = strRepeat "  |" n := by
  intro n
  induction n with
  | zero => rfl
  | succ m ih => simp only [headerCellsText, strRepeat, ih]

theorem headerCellsText_pad :
    ∀ (strs : List String) (count : Nat), strs.length ≤ count →
      headerCellsText strs count = cellsText strs ++ strRepeat "  |" (count - strs.length) := by
  intro strs
  induction strs with
  | nil =>
    intro count _
    simp only [cellsText, List.length_nil, Nat.sub_zero, headerCellsText_nil, strNil_append]
  | cons s rest ih =>
    intro count h
    cases count with
    | zero => exact absurd h (by simp)
    | succ n =>
      have hlen : rest.length ≤ n := Nat.lt_succ_iff.mp (Nat.lt_of_lt_of_le (Nat.lt_succ_self _) h)
      simp only [headerCellsText, cellsText, List.length_cons, Nat.succ_sub_succ,
        ih n hlen, strAppend_assoc]

theorem countChar_append (a b : String) (c : Char) :
    countChar (a ++ b) c = countChar a c + countChar b c := by
  simp [countChar, String.data_append, List.count_append]

theorem countChar_strRepeat (s : String) (c : Char) :
    ∀ n : Nat, countChar (strRepeat s n) c = n * countChar s c := by
  intro n
  induction n with
  | zero => simp [strRepeat, countChar]
  | succ m ih =>
    simp only [strRepeat, countChar_append, ih]
    ring

theorem countChar_benign_pipe {s : String} (h : benignStr s = true) :
    countChar s '|' = 0 := by
  have hall : ∀ c ∈ s.data, c.isAlphanum = true := by
    simpa [benignStr, List.all_eq_true] using h
  refine List.count_eq_zero.mpr ?_
  intro hm
  exact absurd (hall _ hm) (by decide)

theorem countChar_cellsText {row : List String} (h : ∀ s ∈ row, benignStr s = true) :
    countChar (cellsText row) '|' = row.length := by
  induction row with
  | nil => rfl
  | cons s rest ih =>
    simp only [cellsText, countChar_append, List.length_cons,
      countChar_benign_pipe (h s (List.mem_cons_self s rest)),
      ih (fun x hx => h x (List.mem_cons_of_mem _ hx))]
    rw [show countChar " " '|' = 0 from rfl, show countChar " |" '|' = 1 from rfl]
    omega

theorem writeNode_table_eq (fuel : Nat) (ctx : EmitCtx) (header : List MNode)
    (rows : List (List MNode)) (sib : Bool) :
    writeNode (fuel + 1) ctx (.table header rows) sib =
      (writeHeaderAux (writeNode fuel)
          ⟨ensureSkippedLine ctx.out ++ "| ", true, ctx.listLevel⟩ header
          (maxColumns header.length rows)).bind fun c3 =>
        (writeRowsAux (writeNode fuel)
            ⟨c3.out ++ "\n" ++ "| " ++ strRepeat " --- |" (maxColumns header.length rows) ++ "\n",
              c3.insideTable, c3.listLevel⟩ rows).map fun c5 =>
          ⟨c5.out ++ "\n", false, c5.listLevel⟩ := rfl

/-- C9 counterexample to the claim that every data row is padded to
`columnCount` columns: a header of three cells over a single two-cell data row
emits the row line `|  d | e |` with its own two cells — three `|` characters —
although `columnCount = 3`, so the claimed padded row would have four. -/
theorem c9_counterexample :
    writeNode 9 ⟨"", false, 0⟩
        (.table [cellOf "a", cellOf "b", cellOf "c"] [[cellOf "d", cellOf "e"]]) false =
      some ⟨"|  a | b | c |\n|  --- | --- | --- |\n|  d | e |\n\n", false, 0⟩ ∧
    maxColumns ([cellOf "a", cellOf "b", cellOf "c"]).length [[cellOf "d", cellOf "e"]] = 3 ∧
    countChar "|  d | e |" '|' = 3 ∧
    ¬ countChar "|  d | e |" '|' = 3 + 1 :=
  ⟨rfl, rfl, rfl, by decide⟩

/-- C9 (amended): for every Table of benign plain-text cells, the emitted table
consists of a preceding skipped line, a header row padded with empty cells to
`columnCount = max(header cell count, longest data row's cell count)`, a divider
row with `columnCount` columns, and then ONE LINE PER DATA ROW carrying exactly
that row's own cells, unpadded: the header and divider lines have
`columnCount + 1` pipes, while a data row's line has `row.length + 1` pipes. -/
theorem c9_table_amended (fuel : Nat) (ctx : EmitCtx) (header : List String)
    (rows : List (List String)) (sib : Bool)
    (hh : ∀ s ∈ header, benignStr s = true)
    (hr : ∀ row ∈ rows, ∀ s ∈ row, benignStr s = true) :
    writeNode (fuel + 4) ctx
        (.table (header.map cellOf) (rows.map (List.map cellOf))) sib =
      some ⟨ensureSkippedLine ctx.out ++ "| " ++ cellsText header ++
          strRepeat "  |" (tableColumnCount header.length rows - header.length) ++ "\n" ++
          "| " ++ strRepeat " --- |" (tableColumnCount header.length rows) ++ "\n" ++
          rowsText rows ++ "\n", false, ctx.listLevel⟩ ∧
    header.length ≤ tableColumnCount header.length rows ∧
    countChar ("| " ++ cellsText header ++
        strRepeat "  |" (tableColumnCount header.length rows - header.length)) '|' =
      tableColumnCount header.length rows + 1 ∧
    countChar ("| " ++ strRepeat " --- |" (tableColumnCount header.length rows)) '|' =
      tableColumnCount header.length rows + 1 ∧
    ∀ row ∈ rows, countChar ("| " ++ cellsText row ++ "\n") '|' = row.length + 1 := by
  have hle := le_tableColumnCount rows header.length
  refine ⟨?_, hle, ?_, ?_, ?_⟩
  · rw [show writeNode (fuel + 4) ctx
        (.table (header.map cellOf) (rows.map (List.map cellOf))) sib =
        writeNode (fuel + 3 + 1) ctx
          (.table (header.map cellOf) (rows.map (List.map cellOf))) sib from rfl,
      writeNode_table_eq]
    rw [List.length_map, maxColumns_map]
    rw [writeHeaderAux_benign fuel (tableColumnCount header.length rows) header
      ⟨ensureSkippedLine ctx.out ++ "| ", true, ctx.listLevel⟩ hh rfl]
    simp only [Option.bind]
    rw [writeRowsAux_benign fuel rows
      ⟨ensureSkippedLine ctx.out ++ "| " ++
          headerCellsText header (tableColumnCount header.length rows) ++ "\n" ++ "| " ++
          strRepeat " --- |" (tableColumnCount header.length rows) ++ "\n",
        true, ctx.listLevel⟩ hr rfl]
    simp only [Option.map]
    rw [headerCellsText_pad header _ hle]
    simp only [strAppend_assoc]
  · simp only [countChar_append, countChar_strRepeat, countChar_cellsText hh,
      show countChar "| " '|' = 1 from rfl, show countChar "  |" '|' = 1 from rfl,
      Nat.mul_one]
    omega
  · simp only [countChar_append, countChar_strRepeat,
      show countChar "| " '|' = 1 from rfl, show countChar " --- |" '|' = 1 from rfl,
      Nat.mul_one]
    omega
  · intro row hrow
    simp only [countChar_append, countChar_cellsText (hr row hrow),
      show countChar "| " '|' = 1 from rfl, show countChar "\n" '|' = 0 from rfl]
    omega

/-- C9 witness: the amended theorem at a three-cell header over one two-cell
row, evaluated to the concrete emitted table. -/
theorem c9_table_amended_witness :
    writeNode 4 ⟨"", false, 0⟩
        (.table (["a", "b", "c"].map cellOf) ([["d", "e"]].map (List.map cellOf))) false =
      some ⟨"|  a | b | c |\n|  --- | --- | --- |\n|  d | e |\n\n", false, 0⟩ :=
  Eq.trans ((c9_table_amended 0 ⟨"", false, 0⟩ ["a", "b", "c"] [["d", "e"]] false
    (by decide) (by decide)).1) (by rfl)


end ApiDocumenter
